import Mathlib

/-!
Shallow embedding of `src/models/transformer.py` (a Vision Transformer built
from PyTorch primitives).

The repository only composes framework-provided layers.  Accordingly, the
embedding keeps the wiring of the repository concrete and models each framework
primitive by its interface:

* tensors are nested lists of rationals (shapes are list lengths; a 4-D
  input additionally carries its `[B, C, H, W]` shape, as a torch tensor does);
* `nn.LayerNorm(d)` is an arbitrary function on vectors together with the
  dimension check torch performs on the last axis (length-preservation is a
  hypothesis of the shape theorems, satisfied by the real layer);
* `nn.Linear(i, o)` is a concrete weight matrix / bias vector with the torch
  input-dimension check;
* `nn.MultiheadAttention` is an arbitrary function on a query/key/value
  triple returning an output tensor and a weight tensor (shape preservation
  of the output is a hypothesis, satisfied by the real layer);
* `nn.GELU` is an arbitrary scalar function applied elementwise;
* `nn.Dropout` is an arbitrary function on vectors (length-preservation is a
  hypothesis covering every realisation of the random mask);
* shape failures raised by torch / einops are `Except.error` values.
-/

abbrev Scalar := ℚ

abbrev Vec := List Scalar

abbrev Mat := List Vec

abbrev T3 := List Mat

/-- Dot product of two vectors (the core of a linear layer matmul). -/
def dot (u v : Vec) : Scalar := (List.zipWith (· * ·) u v).sum

/-- Elementwise addition of two same-shaped vectors (torch `+` on the last axis). -/
def addVec (u v : Vec) : Vec := List.zipWith (· + ·) u v

/-- Elementwise addition of two same-shaped matrices. -/
def addMat (a b : Mat) : Mat := List.zipWith addVec a b

/-- Elementwise addition of two same-shaped rank-3 tensors (torch `+`). -/
def addT3 (a b : T3) : T3 := List.zipWith addMat a b

/-- A vector generated entrywise (models a freshly created parameter tensor,
e.g. `torch.randn`): the generator fixes the entries, the length is exact. -/
def genVec (f : ℕ → Scalar) (n : ℕ) : Vec := (List.range n).map f

/-- A matrix generated entrywise with exact row/column counts. -/
def genMat (f : ℕ → ℕ → Scalar) (r c : ℕ) : Mat := (List.range r).map (fun i => genVec (f i) c)

/-- Effectful map over a list in the `Except` monad: the first failing element
aborts the whole computation (how a torch op fails on a whole tensor). -/
def mapE {α β : Type} (f : α → Except String β) : List α → Except String (List β)
  | [] => .ok []
  | a :: l => do
      let b ← f a
      let bs ← mapE f l
      pure (b :: bs)

/-- Model of `nn.LayerNorm(dim)`: an arbitrary vector function (normalisation plus the
learned affine map) guarded by the torch last-axis dimension check. -/
structure LNorm where
  dim : ℕ
  f : Vec → Vec

def LNorm.apply (L : LNorm) (v : Vec) : Except String Vec :=
  if v.length = L.dim then .ok (L.f v) else .error "LayerNorm: last dimension mismatch"

/-- A `LayerNorm` module applied to a rank-3 tensor acts tokenwise on the last axis. -/
def lnApply3 (L : LNorm) (x : T3) : Except String T3 := mapE (mapE L.apply) x

/-- Model of `nn.Linear(inF, out)`: weight matrix `W` (one row per output feature, each
row of length `inF`) and bias `b`. -/
structure LinearL where
  inF : ℕ
  W : Mat
  b : Vec

/-- The affine map `W x + b` itself. -/
def LinearL.applyRaw (l : LinearL) (v : Vec) : Vec :=
  List.zipWith (fun row c => dot row v + c) l.W l.b

/-- Model of `nn.Linear` with the torch input-dimension check. -/
def LinearL.apply (l : LinearL) (v : Vec) : Except String Vec :=
  if v.length = l.inF then .ok (l.applyRaw v) else .error "Linear: input dimension mismatch"

/-- A Python value passed as a shape argument: either a string literal whose
`eval` yields a tuple of (non-negative) integers, or an actual tuple value.
`PatchEmbedding.__init__` calls `eval` on it. -/
inductive PyInput where
  | pystr : List ℕ → PyInput
  | pytuple : List ℕ → PyInput
  deriving DecidableEq

/-- The Python `eval` builtin as used on a shape argument: a string evaluates to
the tuple it denotes; any non-string argument raises `TypeError`. -/
def pyEval : PyInput → Except String (List ℕ)
  | .pystr l => .ok l
  | .pytuple _ => .error "TypeError: eval arg 1 must be a string, bytes or code object"

/-- Python tuple unpacking `a, b = t`: fails unless the value has exactly two items. -/
def unpack2 : List ℕ → Except String (ℕ × ℕ)
  | [a, b] => .ok (a, b)
  | _ => .error "ValueError: cannot unpack"

/-- A rank-4 input tensor `[B, C, H, W]`: shape metadata plus nested data.
`wf` states that the data agrees with the shape (torch tensors are rectangular
by construction). -/
structure Tensor4 where
  B : ℕ
  C : ℕ
  H : ℕ
  W : ℕ
  data : List T3

def Tensor4.wf (t : Tensor4) : Prop :=
  t.data.length = t.B ∧
    ∀ im ∈ t.data, im.length = t.C ∧
      ∀ ch ∈ im, ch.length = t.H ∧
        ∀ r ∈ ch, r.length = t.W

instance (t : Tensor4) : Decidable t.wf := by
  unfold Tensor4.wf
  infer_instance

/-- One flattened patch of an image, in einops order `(p1 p2 c)`: for the patch
with row-block `i` and column-block `j`, entries run over `a < p1` (rows),
then `b < p2` (columns), then `c < C` (channels). -/
def patchVec (C p1 p2 : ℕ) (im : T3) (i j : ℕ) : Vec :=
  (List.range p1).flatMap (fun a =>
    (List.range p2).flatMap (fun b =>
      (List.range C).map (fun c =>
        ((im.getD c []).getD (i * p1 + a) []).getD (j * p2 + b) 0)))

/-- All patches of one image, in einops order `(h w)`: row blocks outer,
column blocks inner. -/
def patchesOf (C Hh Ww p1 p2 : ℕ) (im : T3) : Mat :=
  (List.range (Hh / p1)).flatMap (fun i =>
    (List.range (Ww / p2)).map (fun j => patchVec C p1 p2 im i j))

/-- einops `Rearrange(b c (h p1) (w p2) -> b (h w) (p1 p2 c))`: checks that
`p1` divides `H` and `p2` divides `W` (einops raises otherwise), then regroups
every image into its list of flattened patches. -/
def rearrangePatches (p1 p2 : ℕ) (t : Tensor4) : Except String T3 :=
  if t.H % p1 = 0 ∧ t.W % p2 = 0 then
    .ok (t.data.map (fun im => patchesOf t.C t.H t.W p1 p2 im))
  else .error "einops rearrange: axis not divisible"

/-- Model of `PatchEmbedding` module state after a successful `__init__`:
the derived shape fields, the `to_patch_embedding` sub-layers
(`LayerNorm(patch_dim)`, `Linear(patch_dim, d_model)`, `LayerNorm(d_model)`),
and the `pos_embedding` / `cls_token` parameters. -/
structure PatchEmbedding where
  in_channels : ℕ
  d_model : ℕ
  patch_height : ℕ
  patch_width : ℕ
  image_height : ℕ
  image_width : ℕ
  ln_patch : LNorm
  proj : LinearL
  ln_embed : LNorm
  pos_embedding : Mat
  cls_token : Vec

def PatchEmbedding.patch_dim (P : PatchEmbedding) : ℕ :=
  P.in_channels * P.patch_height * P.patch_width

def PatchEmbedding.num_patches (P : PatchEmbedding) : ℕ :=
  (P.image_height / P.patch_height) * (P.image_width / P.patch_width)

/-- The per-token part of `to_patch_embedding` after the rearrange:
`LayerNorm(patch_dim)`, then `Linear(patch_dim, d_model)`, then
`LayerNorm(d_model)`, applied to one flattened patch. -/
def PatchEmbedding.embedTok (P : PatchEmbedding) (v : Vec) : Except String Vec := do
  let a ← P.ln_patch.apply v
  let b ← P.proj.apply a
  P.ln_embed.apply b

/-- The whole `to_patch_embedding` `nn.Sequential`: rearrange into flattened
patches, then the per-token norm/projection pipeline. -/
def PatchEmbedding.to_patch_embedding (P : PatchEmbedding) (t : Tensor4) : Except String T3 := do
  let r ← rearrangePatches P.patch_height P.patch_width t
  mapE (mapE P.embedTok) r

/-- Model of `y + pos[:, :(n + 1)]` for one batch element `y` of `n + 1` rows:
the slice keeps at most `y.length` rows of `pos_embedding`; the torch `+` then
requires the row counts to agree, or broadcasts a single sliced row. -/
def sliceAdd (pos : Mat) (y : Mat) : Except String Mat :=
  let s := pos.take y.length
  if s.length = y.length then .ok (List.zipWith addVec y s)
  else if s.length = 1 then .ok (y.map (fun r => addVec r (s.getD 0 [])))
  else .error "pos_embedding add: size mismatch at dimension 1"

/-- Model of `PatchEmbedding.forward`: patch pipeline, prepend one `cls_token` copy per
batch element, then add the sliced positional embedding. -/
def PatchEmbedding.forward (P : PatchEmbedding) (t : Tensor4) : Except String T3 := do
  let x ← P.to_patch_embedding t
  mapE (fun m => sliceAdd P.pos_embedding (P.cls_token :: m)) x

/-- Model of `MultiHeadAttentionBlock`: a `LayerNorm(d_model)` and an
`nn.MultiheadAttention` modelled as an arbitrary function of the
query/key/value triple returning (output, attention weights). -/
structure MultiHeadAttentionBlock where
  normlayer : LNorm
  attention : T3 → T3 → T3 → T3 × T3

/-- Model of `MultiHeadAttentionBlock.forward`: normalise, self-attend with the
normalised tensor as query, key and value, keep only the output. -/
def MultiHeadAttentionBlock.forward (M : MultiHeadAttentionBlock) (x : T3) : Except String T3 := do
  let nx ← lnApply3 M.normlayer x
  pure (M.attention nx nx nx).1

/-- Model of `FeedForward`: `LayerNorm(d_model)` followed by the `mlp` `nn.Sequential`
(`Linear(d_model, mlp_size)`, `GELU`, `Dropout`, `Linear(mlp_size, d_model)`,
`Dropout`). -/
structure FeedForward where
  layernorm : LNorm
  lin1 : LinearL
  gelu : Scalar → Scalar
  drop1 : Vec → Vec
  lin2 : LinearL
  drop2 : Vec → Vec

/-- The `mlp` `nn.Sequential` of `FeedForward`, on one token. -/
def FeedForward.mlpVec (F : FeedForward) (v : Vec) : Except String Vec := do
  let a ← F.lin1.apply v
  let b := F.drop1 (a.map F.gelu)
  let c ← F.lin2.apply b
  pure (F.drop2 c)

/-- Model of `FeedForward.forward` on one token: `self.mlp(self.layernorm(x))`. -/
def FeedForward.forwardVec (F : FeedForward) (v : Vec) : Except String Vec := do
  let n ← F.layernorm.apply v
  F.mlpVec n

/-- Model of `FeedForward.forward` on a rank-3 tensor: every sub-layer acts on the last
axis, i.e. tokenwise. -/
def FeedForward.forward (F : FeedForward) (x : T3) : Except String T3 :=
  mapE (mapE F.forwardVec) x

/-- Model of `TransformerBlock`: the attention sub-block and the feed-forward sub-block. -/
structure TransformerBlock where
  msa_block : MultiHeadAttentionBlock
  ff_block : FeedForward

/-- Model of `TransformerBlock.forward`:
`x = self.msa_block(x) + x; x = self.ff_block(x) + x`. -/
def TransformerBlock.forward (Bk : TransformerBlock) (x : T3) : Except String T3 := do
  let m ← Bk.msa_block.forward x
  let a := addT3 m x
  let f ← Bk.ff_block.forward a
  pure (addT3 f a)

/-- Model of `nn.Sequential` over the transformer blocks: apply them left to right. -/
def encApply : List TransformerBlock → T3 → Except String T3
  | [], x => .ok x
  | bk :: bs, x => do
      let y ← bk.forward x
      encApply bs y

/-- Model of `ViT` module state: the patch embedding layer, the stacked transformer
blocks, and the classifier head `nn.Sequential(LayerNorm(d_model),
Linear(d_model, num_classes))`. -/
structure ViT where
  patch_embedding_layer : PatchEmbedding
  transformer_encoder : List TransformerBlock
  cls_ln : LNorm
  cls_linear : LinearL

/-- The classifier head on one token. -/
def ViT.classifierVec (V : ViT) (v : Vec) : Except String Vec := do
  let a ← V.cls_ln.apply v
  V.cls_linear.apply a

/-- Model of `x.mean(dim = 1)` for one batch element: the arithmetic mean of the token
rows (tokens are dimension 1 of `[B, tokens, num_classes]`). -/
def meanDim1 : Mat → Vec
  | [] => []
  | v :: vs => (vs.foldl addVec v).map (fun s => s / ((vs.length + 1 : ℕ) : Scalar))

/-- Model of `ViT.forward` up to (excluding) the final mean:
`self.classifier(self.transformer_encoder(self.patch_embedding_layer(x)))`. -/
def ViT.preMean (V : ViT) (t : Tensor4) : Except String T3 := do
  let s ← V.patch_embedding_layer.forward t
  let e ← encApply V.transformer_encoder s
  mapE (mapE V.classifierVec) e

/-- Model of `ViT.forward`: the classifier stack followed by `x.mean(dim = 1)`. -/
def ViT.forward (V : ViT) (t : Tensor4) : Except String Mat :=
  (V.preMean t).map (fun c => c.map meanDim1)

/-- The framework-primitive ingredients `PatchEmbedding.__init__` draws on:
the two layer norm core functions and entrywise generators for the freshly
created `Linear`, `pos_embedding` and `cls_token` parameters. -/
structure PatchPrims where
  norm_patch : Vec → Vec
  norm_embed : Vec → Vec
  wproj : ℕ → ℕ → Scalar
  bproj : ℕ → Scalar
  wpos : ℕ → ℕ → Scalar
  wcls : ℕ → Scalar

/-- Model of `PatchEmbedding.__init__`: `eval` both shape arguments, unpack them as
pairs, then build the module state.  Python would raise `ZeroDivisionError`
computing `num_patches` if a patch side were zero. -/
def mkPatchEmbedding (in_channels d_model : ℕ) (img_shape patch_shape : PyInput)
    (pp : PatchPrims) : Except String PatchEmbedding := do
  let pl ← pyEval patch_shape
  let pq ← unpack2 pl
  let il ← pyEval img_shape
  let iq ← unpack2 il
  let ph := pq.1
  let pw := pq.2
  let ih := iq.1
  let iw := iq.2
  if ph = 0 ∨ pw = 0 then
    .error "ZeroDivisionError: integer division or modulo by zero"
  else
    let pd := in_channels * ph * pw
    let np := (ih / ph) * (iw / pw)
    .ok { in_channels := in_channels
          d_model := d_model
          patch_height := ph
          patch_width := pw
          image_height := ih
          image_width := iw
          ln_patch := ⟨pd, pp.norm_patch⟩
          proj := ⟨pd, genMat pp.wproj d_model pd, genVec pp.bproj d_model⟩
          ln_embed := ⟨d_model, pp.norm_embed⟩
          pos_embedding := genMat pp.wpos (np + 1) d_model
          cls_token := genVec pp.wcls d_model }

/-- The framework-primitive ingredients of one `TransformerBlock`. -/
structure BlockPrims where
  norm_attn : Vec → Vec
  attn : T3 → T3 → T3 → T3 × T3
  norm_ff : Vec → Vec
  geluf : Scalar → Scalar
  dropf1 : Vec → Vec
  dropf2 : Vec → Vec
  w1 : ℕ → ℕ → Scalar
  b1 : ℕ → Scalar
  w2 : ℕ → ℕ → Scalar
  b2 : ℕ → Scalar

/-- Model of `TransformerBlock.__init__`: a `MultiHeadAttentionBlock(d_model, num_heads,
attn_dropout)` and a `FeedForward(d_model, mlp_size, mlp_dropout)`
(`num_heads` and the dropout rates are absorbed into the abstract attention /
dropout functions). -/
def mkTransformerBlock (d_model mlp_size : ℕ) (bp : BlockPrims) : TransformerBlock :=
  { msa_block := { normlayer := ⟨d_model, bp.norm_attn⟩, attention := bp.attn }
    ff_block := { layernorm := ⟨d_model, bp.norm_ff⟩
                  lin1 := ⟨d_model, genMat bp.w1 mlp_size d_model, genVec bp.b1 mlp_size⟩
                  gelu := bp.geluf
                  drop1 := bp.dropf1
                  lin2 := ⟨mlp_size, genMat bp.w2 d_model mlp_size, genVec bp.b2 d_model⟩
                  drop2 := bp.dropf2 } }

/-- The framework-primitive ingredients of a whole `ViT`. -/
structure VitPrims where
  patchPrims : PatchPrims
  blockPrims : ℕ → BlockPrims
  norm_cls : Vec → Vec
  wc : ℕ → ℕ → Scalar
  bc : ℕ → Scalar

/-- Model of `ViT.__init__`: construct the patch embedding layer (this can raise, via
`eval`), the `num_transformer_layers` transformer blocks, and the classifier
head.  `num_heads` is carried by the block attention primitives. -/
def mkViT (img_shape : PyInput) (in_channels : ℕ) (patch_shape : PyInput)
    (d_model num_transformer_layers mlp_size num_heads num_classes : ℕ)
    (vp : VitPrims) : Except String ViT := do
  let pe ← mkPatchEmbedding in_channels d_model img_shape patch_shape vp.patchPrims
  .ok { patch_embedding_layer := pe
        transformer_encoder :=
          (List.range num_transformer_layers).map
            (fun i => mkTransformerBlock d_model mlp_size (vp.blockPrims i))
        cls_ln := ⟨d_model, vp.norm_cls⟩
        cls_linear := ⟨d_model, genMat vp.wc num_classes d_model, genVec vp.bc num_classes⟩ }

/-- The default `img_shape` of `ViT.__init__`: the tuple `(160, 106)`, not a string. -/
def default_img_shape : PyInput := .pytuple [160, 106]

/-- The default `patch_shape` of `ViT.__init__`: the tuple `(32, 53)`, not a string. -/
def default_patch_shape : PyInput := .pytuple [32, 53]

/-- Model of `ViT()` with all defaults: `in_channels = 4`, `d_model = 512`,
`num_transformer_layers = 2`, `mlp_size = 1048`, `num_heads = 4`,
`num_classes = 1`. -/
def vitDefault (vp : VitPrims) : Except String ViT :=
  mkViT default_img_shape 4 default_patch_shape 512 2 1048 4 1 vp

/-! ### Concrete instances (identity primitives, all-ones weights, zero
biases) used to evaluate the model on small inputs. -/

def idPatchPrims : PatchPrims :=
  ⟨id, id, fun _ _ => 1, fun _ => 0, fun _ _ => 1, fun _ => 1⟩

def idBlockPrims : BlockPrims :=
  ⟨id, fun q _ _ => (q, q), id, id, id, id, fun _ _ => 1, fun _ => 0, fun _ _ => 1, fun _ => 0⟩

def idVitPrims : VitPrims :=
  ⟨idPatchPrims, fun _ => idBlockPrims, id, fun _ _ => 1, fun _ => 0⟩

/-- The `PatchEmbedding` state produced by
`mkPatchEmbedding 1 2 (pystr [2, 2]) (pystr [1, 2]) idPatchPrims`:
2×2 single-channel images, 1×2 patches, `d_model = 2`, so `patch_dim = 2` and
`num_patches = 2`. -/
def peW : PatchEmbedding :=
  { in_channels := 1, d_model := 2, patch_height := 1, patch_width := 2,
    image_height := 2, image_width := 2,
    ln_patch := ⟨2, id⟩,
    proj := ⟨2, genMat (fun _ _ => 1) 2 2, genVec (fun _ => 0) 2⟩,
    ln_embed := ⟨2, id⟩,
    pos_embedding := genMat (fun _ _ => 1) 3 2,
    cls_token := genVec (fun _ => 1) 2 }

/-- The `ViT` produced by
`mkViT (pystr [2, 2]) 1 (pystr [1, 2]) 2 1 3 1 1 idVitPrims`:
one transformer block, `mlp_size = 3`, one output class. -/
def vitW : ViT :=
  { patch_embedding_layer := peW,
    transformer_encoder := [mkTransformerBlock 2 3 idBlockPrims],
    cls_ln := ⟨2, id⟩,
    cls_linear := ⟨2, genMat (fun _ _ => 1) 1 2, genVec (fun _ => 0) 1⟩ }

/-- A well-formed `[1, 1, 2, 2]` input batch. -/
def twit : Tensor4 := ⟨1, 1, 2, 2, [[[[1, 2], [3, 4]]]]⟩

/-- The `PatchEmbedding` state produced by
`mkPatchEmbedding 1 1 (pystr [4, 4]) (pystr [3, 3]) idPatchPrims`: a 4×4
image with 3×3 patches — the patch does not divide the image
(`4 % 3 = 1`), while `num_patches = (4 / 3) * (4 / 3) = 1` by floor division. -/
def peC6 : PatchEmbedding :=
  { in_channels := 1, d_model := 1, patch_height := 3, patch_width := 3,
    image_height := 4, image_width := 4,
    ln_patch := ⟨9, id⟩,
    proj := ⟨9, genMat (fun _ _ => 1) 1 9, genVec (fun _ => 0) 1⟩,
    ln_embed := ⟨1, id⟩,
    pos_embedding := genMat (fun _ _ => 1) 2 1,
    cls_token := genVec (fun _ => 1) 1 }

/-- A well-formed `[1, 1, 4, 4]` input batch (it matches the configured image shape of `peC6`). -/
def tC6 : Tensor4 := ⟨1, 1, 4, 4, [[List.replicate 4 (List.replicate 4 1)]]⟩

/-- The `PatchEmbedding` state produced by
`mkPatchEmbedding 1 1 (pystr [1, 1]) (pystr [2, 2]) idPatchPrims`: the patch
(2×2) is larger than the configured image (1×1), so `num_patches = 0` and
`pos_embedding` has a single row. -/
def peC10 : PatchEmbedding :=
  { in_channels := 1, d_model := 1, patch_height := 2, patch_width := 2,
    image_height := 1, image_width := 1,
    ln_patch := ⟨4, id⟩,
    proj := ⟨4, genMat (fun _ _ => 1) 1 4, genVec (fun _ => 0) 1⟩,
    ln_embed := ⟨1, id⟩,
    pos_embedding := genMat (fun _ _ => 1) 1 1,
    cls_token := genVec (fun _ => 1) 1 }

/-- A well-formed `[1, 1, 2, 2]` input batch: its `2 × 2` axes are divisible
by the `2 × 2` patch of `peC10`, and it yields `1 > 0 = num_patches` patches. -/
def tC10 : Tensor4 := ⟨1, 1, 2, 2, [[[[1, 2], [3, 4]]]]⟩

/-! ### Interface contracts of the framework primitives

These predicates record the shape behaviour the real PyTorch layers have:
`nn.LayerNorm` and `nn.Dropout` preserve the last-axis length, the `nn.Linear`
parameters have the declared sizes, and `nn.MultiheadAttention` returns an
output of the same shape as its query. -/

/-- A vector function that preserves length (layer norm core, dropout). -/
def fGood (f : Vec → Vec) : Prop := ∀ v, (f v).length = v.length

def lnGood (L : LNorm) : Prop := fGood L.f

/-- The full nested shape of a rank-3 tensor. -/
def shape3 (x : T3) : List (List ℕ) := x.map (fun m => m.map List.length)

/-- Model of `nn.MultiheadAttention` returns an output shaped like its query. -/
def attnGood (at3 : T3 → T3 → T3 → T3 × T3) : Prop :=
  ∀ q k v, shape3 (at3 q k v).1 = shape3 q

/-- All tokens (innermost vectors) of a rank-3 tensor have length `d`. -/
def tokUnif (d : ℕ) (x : T3) : Prop := ∀ m ∈ x, ∀ v ∈ m, v.length = d

def msaGood (M : MultiHeadAttentionBlock) (d : ℕ) : Prop :=
  lnGood M.normlayer ∧ M.normlayer.dim = d ∧ attnGood M.attention

def ffGood (F : FeedForward) (d : ℕ) : Prop :=
  lnGood F.layernorm ∧ F.layernorm.dim = d ∧
  F.lin1.inF = d ∧ F.lin1.b.length = F.lin1.W.length ∧
  fGood F.drop1 ∧
  F.lin2.inF = F.lin1.W.length ∧ F.lin2.b.length = F.lin2.W.length ∧
  F.lin2.W.length = d ∧ fGood F.drop2

def blockGood (Bk : TransformerBlock) (d : ℕ) : Prop :=
  msaGood Bk.msa_block d ∧ ffGood Bk.ff_block d

def peGood (P : PatchEmbedding) : Prop :=
  lnGood P.ln_patch ∧ P.ln_patch.dim = P.patch_dim ∧
  P.proj.inF = P.patch_dim ∧ P.proj.W.length = P.d_model ∧ P.proj.b.length = P.d_model ∧
  lnGood P.ln_embed ∧ P.ln_embed.dim = P.d_model ∧
  P.pos_embedding.length = P.num_patches + 1 ∧
  (∀ r ∈ P.pos_embedding, r.length = P.d_model) ∧
  P.cls_token.length = P.d_model

/-- The framework primitives of one block satisfy their interface contracts
(true of the real PyTorch layers: layer norm, dropout and attention preserve
the relevant shapes). -/
def blockPrimsGood (bp : BlockPrims) : Prop :=
  fGood bp.norm_attn ∧ attnGood bp.attn ∧ fGood bp.norm_ff ∧
    fGood bp.dropf1 ∧ fGood bp.dropf2

def vitPrimsGood (vp : VitPrims) : Prop :=
  fGood vp.patchPrims.norm_patch ∧ fGood vp.patchPrims.norm_embed ∧
    (∀ i, blockPrimsGood (vp.blockPrims i)) ∧ fGood vp.norm_cls

def clsGood (V : ViT) (d nc : ℕ) : Prop :=
  lnGood V.cls_ln ∧ V.cls_ln.dim = d ∧
  V.cls_linear.inF = d ∧ V.cls_linear.W.length = nc ∧ V.cls_linear.b.length = nc

/-! ### Basic lemmas about the `Except` plumbing -/

theorem exceptBind_ok {α β : Type} {x : Except String α} {f : α → Except String β} {b : β} :
    (x >>= f) = .ok b ↔ ∃ a, x = .ok a ∧ f a = .ok b := by
  cases x <;> simp [Bind.bind, Except.bind]

theorem exceptMap_ok {α β : Type} {x : Except String α} {f : α → β} {b : β} :
    (x.map f) = .ok b ↔ ∃ a, x = .ok a ∧ b = f a := by
  cases x with
  | error e => simp [Except.map]
  | ok a =>
      simp [Except.map]
      exact eq_comm

theorem mapE_ok_iff {α β : Type} {f : α → Except String β} :
    ∀ {l : List α} {ys : List β},
      mapE f l = .ok ys ↔ List.Forall₂ (fun a b => f a = .ok b) l ys := by
  intro l
  induction l with
  | nil =>
      intro ys
      constructor
      · intro h
        cases h
        exact List.Forall₂.nil
      · intro h
        cases h
        rfl
  | cons a l ih =>
      intro ys
      constructor
      · intro h
        simp only [mapE, bind, Except.bind] at h
        cases hfa : f a with
        | error e => rw [hfa] at h; cases h
        | ok b =>
            rw [hfa] at h
            cases hrest : mapE f l with
            | error e => rw [hrest] at h; cases h
            | ok bs =>
                rw [hrest] at h
                simp only [pure, Except.pure, Except.ok.injEq] at h
                subst h
                exact List.Forall₂.cons hfa (ih.mp hrest)
      · intro h
        cases h with
        | cons hab htl =>
            simp only [mapE, bind, Except.bind, hab, ih.mpr htl, pure, Except.pure]

theorem mapE_ok_length {α β : Type} {f : α → Except String β} {l : List α} {ys : List β}
    (h : mapE f l = .ok ys) : ys.length = l.length :=
  ((mapE_ok_iff.mp h).length_eq).symm

theorem mapE_ok_of_forall {α β : Type} {f : α → Except String β} {l : List α}
    (h : ∀ a ∈ l, ∃ b, f a = .ok b) : ∃ ys, mapE f l = .ok ys := by
  induction l with
  | nil => exact ⟨[], rfl⟩
  | cons a l ih =>
      obtain ⟨b, hb⟩ := h a (List.mem_cons_self a l)
      obtain ⟨bs, hbs⟩ := ih (fun x hx => h x (List.mem_cons_of_mem a hx))
      refine ⟨b :: bs, ?_⟩
      simp only [mapE, bind, Except.bind, hb, hbs, pure, Except.pure]

theorem forall₂_mem_right {α β : Type} {R : α → β → Prop} {l : List α} {ys : List β}
    (h : List.Forall₂ R l ys) : ∀ b ∈ ys, ∃ a ∈ l, R a b := by
  induction h with
  | nil => intro b hb; cases hb
  | cons hab htl ih =>
      intro b hb
      rcases List.mem_cons.mp hb with hb | hb
      · subst hb
        exact ⟨_, List.mem_cons_self _ _, hab⟩
      · obtain ⟨a, ha, hr⟩ := ih b hb
        exact ⟨a, List.mem_cons_of_mem _ ha, hr⟩

theorem mapE_mem_ok {α β : Type} {f : α → Except String β} {l : List α} {ys : List β}
    (h : mapE f l = .ok ys) : ∀ b ∈ ys, ∃ a ∈ l, f a = .ok b :=
  forall₂_mem_right (mapE_ok_iff.mp h)

/-! ### Lemmas about the primitive layer models -/

theorem lnApply_ok_iff {L : LNorm} {v w : Vec} :
    L.apply v = .ok w ↔ v.length = L.dim ∧ w = L.f v := by
  unfold LNorm.apply
  by_cases h : v.length = L.dim
  · simp [h, eq_comm]
  · simp [h]

theorem linApply_ok_iff {l : LinearL} {v w : Vec} :
    l.apply v = .ok w ↔ v.length = l.inF ∧ w = l.applyRaw v := by
  unfold LinearL.apply
  by_cases h : v.length = l.inF
  · simp [h, eq_comm]
  · simp [h]

theorem linApplyRaw_length (l : LinearL) (v : Vec) :
    (l.applyRaw v).length = min l.W.length l.b.length := by
  simp [LinearL.applyRaw, List.length_zipWith]

/-! ### Shape lemmas for elementwise addition and the encoder stack -/

theorem addVec_length (u v : Vec) : (addVec u v).length = min u.length v.length := by
  simp [addVec, List.length_zipWith]

theorem addMat_shape {a b : Mat} (h : a.map List.length = b.map List.length) :
    (addMat a b).map List.length = a.map List.length := by
  induction a generalizing b with
  | nil => simp [addMat]
  | cons v a ih =>
      cases b with
      | nil => simp at h
      | cons w b =>
          simp only [List.map, List.cons.injEq] at h
          simp only [addMat, List.zipWith, List.map, List.cons.injEq]
          refine ⟨?_, ih h.2⟩
          rw [addVec_length, h.1, Nat.min_self]

theorem addT3_shape3 {a b : T3} (h : shape3 a = shape3 b) : shape3 (addT3 a b) = shape3 a := by
  induction a generalizing b with
  | nil => simp [addT3, shape3]
  | cons m a ih =>
      cases b with
      | nil => simp [shape3] at h
      | cons m' b =>
          simp only [shape3, List.map, List.cons.injEq] at h
          simp only [addT3, List.zipWith, shape3, List.map, List.cons.injEq]
          exact ⟨addMat_shape h.1, ih h.2⟩

theorem tokUnif_iff_shape3 {d : ℕ} {x : T3} :
    tokUnif d x ↔ ∀ r ∈ shape3 x, ∀ c ∈ r, c = d := by
  unfold tokUnif shape3
  constructor
  · intro h r hr c hc
    obtain ⟨m, hm, rfl⟩ := List.mem_map.mp hr
    obtain ⟨v, hv, rfl⟩ := List.mem_map.mp hc
    exact h m hm v hv
  · intro h m hm v hv
    exact h _ (List.mem_map_of_mem _ hm) _ (List.mem_map_of_mem _ hv)

theorem tokUnif_of_shape3_eq {d : ℕ} {x y : T3} (hxy : shape3 y = shape3 x)
    (h : tokUnif d x) : tokUnif d y := by
  rw [tokUnif_iff_shape3] at h ⊢
  rw [hxy]
  exact h

theorem forall₂_map_eq_mem {α β γ : Type} {R : α → β → Prop} {f : α → γ} {g : β → γ} :
    ∀ {l₁ : List α} {l₂ : List β}, List.Forall₂ R l₁ l₂ →
      (∀ a ∈ l₁, ∀ b, R a b → g b = f a) → l₂.map g = l₁.map f := by
  intro l₁ l₂ h
  induction h with
  | nil => intro _; rfl
  | cons hab htl ih =>
      intro hmem
      simp only [List.map, List.cons.injEq]
      exact ⟨hmem _ (List.mem_cons_self _ _) _ hab,
             ih (fun a ha b hr => hmem a (List.mem_cons_of_mem _ ha) b hr)⟩

theorem lnApply3_ok_of_tokUnif {L : LNorm} {x : T3} (h : tokUnif L.dim x) :
    ∃ y, lnApply3 L x = .ok y := by
  unfold lnApply3
  apply mapE_ok_of_forall
  intro m hm
  apply mapE_ok_of_forall
  intro v hv
  exact ⟨L.f v, lnApply_ok_iff.mpr ⟨h m hm v hv, rfl⟩⟩

theorem lnApply3_shape3 {L : LNorm} (hL : lnGood L) {x y : T3} (h : lnApply3 L x = .ok y) :
    shape3 y = shape3 x := by
  unfold lnApply3 at h
  unfold shape3
  refine forall₂_map_eq_mem (mapE_ok_iff.mp h) ?_
  intro m _ m' hm'
  refine forall₂_map_eq_mem (mapE_ok_iff.mp hm') ?_
  intro v _ w hw
  obtain ⟨_, rfl⟩ := lnApply_ok_iff.mp hw
  exact hL v

theorem msa_forward_ok {M : MultiHeadAttentionBlock} {d : ℕ} (hM : msaGood M d) {x : T3}
    (hx : tokUnif d x) : ∃ y, M.forward x = .ok y ∧ shape3 y = shape3 x := by
  obtain ⟨hln, hdim, hattn⟩ := hM
  obtain ⟨nx, hnx⟩ := lnApply3_ok_of_tokUnif (show tokUnif M.normlayer.dim x by rw [hdim]; exact hx)
  refine ⟨(M.attention nx nx nx).1, ?_, ?_⟩
  · simp [MultiHeadAttentionBlock.forward, hnx, Bind.bind, Except.bind, pure, Except.pure]
  · rw [hattn]
    exact lnApply3_shape3 hln hnx

theorem ffVec_ok {F : FeedForward} {d : ℕ} (hF : ffGood F d) {v : Vec} (hv : v.length = d) :
    F.forwardVec v =
      .ok (F.drop2 (F.lin2.applyRaw (F.drop1 ((F.lin1.applyRaw (F.layernorm.f v)).map F.gelu)))) ∧
    (F.drop2 (F.lin2.applyRaw (F.drop1 ((F.lin1.applyRaw (F.layernorm.f v)).map F.gelu)))).length
      = d := by
  obtain ⟨hln, hdim, hin1, hb1, hdrop1, hin2, hb2, hW2, hdrop2⟩ := hF
  have ha : F.layernorm.apply v = .ok (F.layernorm.f v) :=
    lnApply_ok_iff.mpr ⟨hv.trans hdim.symm, rfl⟩
  have hal : (F.layernorm.f v).length = d := (hln v).trans hv
  have hl1 : F.lin1.apply (F.layernorm.f v) = .ok (F.lin1.applyRaw (F.layernorm.f v)) :=
    linApply_ok_iff.mpr ⟨hal.trans hin1.symm, rfl⟩
  have hb1l : (F.drop1 ((F.lin1.applyRaw (F.layernorm.f v)).map F.gelu)).length
      = F.lin1.W.length := by
    rw [hdrop1, List.length_map, linApplyRaw_length, hb1, Nat.min_self]
  have hl2 : F.lin2.apply (F.drop1 ((F.lin1.applyRaw (F.layernorm.f v)).map F.gelu))
      = .ok (F.lin2.applyRaw (F.drop1 ((F.lin1.applyRaw (F.layernorm.f v)).map F.gelu))) :=
    linApply_ok_iff.mpr ⟨hb1l.trans hin2.symm, rfl⟩
  constructor
  · simp [FeedForward.forwardVec, FeedForward.mlpVec, ha, hl1, hl2,
          Bind.bind, Except.bind, pure, Except.pure]
  · rw [hdrop2, linApplyRaw_length, hb2, Nat.min_self, hW2]

theorem ff_forward_ok {F : FeedForward} {d : ℕ} (hF : ffGood F d) {x : T3}
    (hx : tokUnif d x) : ∃ y, F.forward x = .ok y ∧ shape3 y = shape3 x := by
  have hex : ∃ y, F.forward x = .ok y := by
    unfold FeedForward.forward
    apply mapE_ok_of_forall
    intro m hm
    apply mapE_ok_of_forall
    intro v hv
    exact ⟨_, (ffVec_ok hF (hx m hm v hv)).1⟩
  obtain ⟨y, hy⟩ := hex
  refine ⟨y, hy, ?_⟩
  unfold FeedForward.forward at hy
  unfold shape3
  refine forall₂_map_eq_mem (mapE_ok_iff.mp hy) ?_
  intro m hm m' hm'
  refine forall₂_map_eq_mem (mapE_ok_iff.mp hm') ?_
  intro v hv w hw
  obtain ⟨heq, hlen⟩ := ffVec_ok hF (hx m hm v hv)
  rw [heq] at hw
  cases hw
  rw [hlen, hx m hm v hv]

theorem tb_forward_ok {Bk : TransformerBlock} {d : ℕ} (hB : blockGood Bk d) {x : T3}
    (hx : tokUnif d x) : ∃ y, Bk.forward x = .ok y ∧ shape3 y = shape3 x := by
  obtain ⟨m, hm, hms⟩ := msa_forward_ok hB.1 hx
  have ha_shape : shape3 (addT3 m x) = shape3 x := (addT3_shape3 hms).trans hms
  obtain ⟨f, hf, hfs⟩ := ff_forward_ok hB.2 (tokUnif_of_shape3_eq ha_shape hx)
  refine ⟨addT3 f (addT3 m x), ?_, ?_⟩
  · simp [TransformerBlock.forward, hm, hf, Bind.bind, Except.bind, pure, Except.pure]
  · exact (addT3_shape3 hfs).trans (hfs.trans ha_shape)

theorem enc_ok {d : ℕ} : ∀ {bs : List TransformerBlock}, (∀ b ∈ bs, blockGood b d) →
    ∀ {x : T3}, tokUnif d x → ∃ y, encApply bs x = .ok y ∧ shape3 y = shape3 x := by
  intro bs
  induction bs with
  | nil => exact fun _ _ _ => ⟨_, rfl, rfl⟩
  | cons b bs ih =>
      intro hbs x hx
      obtain ⟨y, hy, hys⟩ := tb_forward_ok (hbs b (List.mem_cons_self _ _)) hx
      obtain ⟨z, hz, hzs⟩ :=
        ih (fun b' hb' => hbs b' (List.mem_cons_of_mem _ hb')) (tokUnif_of_shape3_eq hys hx)
      refine ⟨z, ?_, hzs.trans hys⟩
      simp [encApply, hy, hz, Bind.bind, Except.bind]

/-! ### Lemmas about the patch embedding -/

theorem except_isOk_iff {α : Type} {e : Except String α} : e.isOk = true ↔ ∃ a, e = .ok a := by
  cases e <;> simp [Except.isOk, Except.toBool]

theorem forall₂_mem_left {α β : Type} {R : α → β → Prop} {l : List α} {ys : List β}
    (h : List.Forall₂ R l ys) : ∀ a ∈ l, ∃ b ∈ ys, R a b := by
  induction h with
  | nil => intro a ha; cases ha
  | cons hab htl ih =>
      intro a ha
      rcases List.mem_cons.mp ha with ha | ha
      · subst ha
        exact ⟨_, List.mem_cons_self _ _, hab⟩
      · obtain ⟨b, hb, hr⟩ := ih a ha
        exact ⟨b, List.mem_cons_of_mem _ hb, hr⟩

theorem length_flatMap_const {α β : Type} (l : List α) (f : α → List β) (k : ℕ)
    (h : ∀ a ∈ l, (f a).length = k) : (l.flatMap f).length = l.length * k := by
  induction l with
  | nil => simp
  | cons a l ih =>
      rw [List.flatMap_cons, List.length_append, h a (List.mem_cons_self a l),
          ih (fun x hx => h x (List.mem_cons_of_mem a hx)), List.length_cons, Nat.succ_mul,
          Nat.add_comm]

theorem patchVec_length (C p1 p2 : ℕ) (im : T3) (i j : ℕ) :
    (patchVec C p1 p2 im i j).length = p1 * (p2 * C) := by
  unfold patchVec
  rw [length_flatMap_const _ _ (p2 * C), List.length_range]
  intro a _
  rw [length_flatMap_const _ _ C, List.length_range]
  intro b _
  rw [List.length_map, List.length_range]

theorem patchesOf_length (C Hh Ww p1 p2 : ℕ) (im : T3) :
    (patchesOf C Hh Ww p1 p2 im).length = (Hh / p1) * (Ww / p2) := by
  unfold patchesOf
  rw [length_flatMap_const _ _ (Ww / p2), List.length_range]
  intro i _
  rw [List.length_map, List.length_range]

theorem patchesOf_mem_length {C Hh Ww p1 p2 : ℕ} {im : T3} :
    ∀ p ∈ patchesOf C Hh Ww p1 p2 im, p.length = p1 * (p2 * C) := by
  intro p hp
  unfold patchesOf at hp
  obtain ⟨i, _, hp⟩ := List.mem_flatMap.mp hp
  obtain ⟨j, _, rfl⟩ := List.mem_map.mp hp
  exact patchVec_length C p1 p2 im i j

theorem rearrange_ok_iff {p1 p2 : ℕ} {t : Tensor4} {r : T3} :
    rearrangePatches p1 p2 t = .ok r ↔
      (t.H % p1 = 0 ∧ t.W % p2 = 0) ∧
        r = t.data.map (fun im => patchesOf t.C t.H t.W p1 p2 im) := by
  unfold rearrangePatches
  by_cases h : t.H % p1 = 0 ∧ t.W % p2 = 0
  · simp [h, eq_comm]
  · simp [h]

theorem embedTok_ok {P : PatchEmbedding} (hP : peGood P) {v : Vec}
    (hv : v.length = P.patch_dim) :
    P.embedTok v = .ok (P.ln_embed.f (P.proj.applyRaw (P.ln_patch.f v))) ∧
    (P.ln_embed.f (P.proj.applyRaw (P.ln_patch.f v))).length = P.d_model := by
  obtain ⟨hln1, hdim1, hinF, hW, hb, hln2, hdim2, _, _, _⟩ := hP
  have ha : P.ln_patch.apply v = .ok (P.ln_patch.f v) :=
    lnApply_ok_iff.mpr ⟨hv.trans hdim1.symm, rfl⟩
  have hl : P.proj.apply (P.ln_patch.f v) = .ok (P.proj.applyRaw (P.ln_patch.f v)) :=
    linApply_ok_iff.mpr ⟨((hln1 v).trans hv).trans hinF.symm, rfl⟩
  have hrawlen : (P.proj.applyRaw (P.ln_patch.f v)).length = P.d_model := by
    rw [linApplyRaw_length, hW, hb, Nat.min_self]
  have h2 : P.ln_embed.apply (P.proj.applyRaw (P.ln_patch.f v))
      = .ok (P.ln_embed.f (P.proj.applyRaw (P.ln_patch.f v))) :=
    lnApply_ok_iff.mpr ⟨hrawlen.trans hdim2.symm, rfl⟩
  constructor
  · simp [PatchEmbedding.embedTok, ha, hl, h2, Bind.bind, Except.bind]
  · rw [hln2 (P.proj.applyRaw (P.ln_patch.f v)), hrawlen]

theorem mem_zipWith_addVec {d : ℕ} :
    ∀ {y s : Mat}, (∀ r ∈ y, r.length = d) → (∀ r ∈ s, r.length = d) →
      ∀ w ∈ List.zipWith addVec y s, w.length = d := by
  intro y
  induction y with
  | nil => intro s _ _ w hw; cases hw
  | cons v y ih =>
      intro s hy hs w hw
      cases s with
      | nil => cases hw
      | cons r s =>
          rcases List.mem_cons.mp hw with hw | hw
          · subst hw
            rw [addVec_length, hy v (List.mem_cons_self _ _), hs r (List.mem_cons_self _ _),
                Nat.min_self]
          · exact ih (fun u hu => hy u (List.mem_cons_of_mem _ hu))
              (fun u hu => hs u (List.mem_cons_of_mem _ hu)) w hw

theorem sliceAdd_ok_shape {d : ℕ} {pos y z : Mat} (h : sliceAdd pos y = .ok z)
    (hy : ∀ r ∈ y, r.length = d) (hpos : ∀ r ∈ pos, r.length = d) :
    z.length = y.length ∧ ∀ r ∈ z, r.length = d := by
  unfold sliceAdd at h
  have hs : ∀ r ∈ pos.take y.length, r.length = d :=
    fun r hr => hpos r (List.mem_of_mem_take hr)
  by_cases h1 : (pos.take y.length).length = y.length
  · rw [if_pos h1] at h
    cases h
    constructor
    · rw [List.length_zipWith, h1, Nat.min_self]
    · exact mem_zipWith_addVec hy hs
  · rw [if_neg h1] at h
    by_cases h2 : (pos.take y.length).length = 1
    · rw [if_pos h2] at h
      cases h
      constructor
      · rw [List.length_map]
      · intro r hr
        obtain ⟨u, hu, rfl⟩ := List.mem_map.mp hr
        have h0 : (pos.take y.length).getD 0 [] ∈ pos.take y.length := by
          rw [List.getD_eq_getElem?_getD, List.getElem?_eq_getElem (by omega)]
          exact List.getElem_mem (by omega)
        rw [addVec_length, hy u hu, hs _ h0, Nat.min_self]
    · rw [if_neg h2] at h
      cases h

theorem sliceAdd_ok_of_min {pos y : Mat}
    (h : min y.length pos.length = y.length ∨ min y.length pos.length = 1) :
    ∃ z, sliceAdd pos y = .ok z := by
  unfold sliceAdd
  rcases h with h | h
  · rw [if_pos (by rw [List.length_take]; exact h)]
    exact ⟨_, rfl⟩
  · by_cases h1 : (pos.take y.length).length = y.length
    · rw [if_pos h1]
      exact ⟨_, rfl⟩
    · rw [if_neg h1, if_pos (by rw [List.length_take]; exact h)]
      exact ⟨_, rfl⟩

theorem sliceAdd_ok_min {pos y : Mat} {z : Mat} (h : sliceAdd pos y = .ok z) :
    min y.length pos.length = y.length ∨ min y.length pos.length = 1 := by
  unfold sliceAdd at h
  by_cases h1 : (pos.take y.length).length = y.length
  · rw [List.length_take] at h1
    exact Or.inl h1
  · rw [if_neg h1] at h
    by_cases h2 : (pos.take y.length).length = 1
    · rw [List.length_take] at h2
      exact Or.inr h2
    · rw [if_neg h2] at h
      cases h

theorem forall₂_imp_mem {α β : Type} {R S : α → β → Prop} :
    ∀ {l : List α} {ys : List β}, List.Forall₂ R l ys →
      (∀ a ∈ l, ∀ b, R a b → S a b) → List.Forall₂ S l ys := by
  intro l ys h
  induction h with
  | nil => intro _; exact List.Forall₂.nil
  | cons hab htl ih =>
      intro hmem
      exact List.Forall₂.cons (hmem _ (List.mem_cons_self _ _) _ hab)
        (ih (fun a ha b hr => hmem a (List.mem_cons_of_mem _ ha) b hr))

theorem forall₂_comp {α β γ : Type} {R : α → β → Prop} {S : β → γ → Prop} :
    ∀ {l₁ : List α} {l₂ : List β} {l₃ : List γ},
      List.Forall₂ R l₁ l₂ → List.Forall₂ S l₂ l₃ →
      List.Forall₂ (fun a c => ∃ b, R a b ∧ S b c) l₁ l₃ := by
  intro l₁ l₂ l₃ h
  induction h generalizing l₃ with
  | nil =>
      intro h2
      cases h2
      exact List.Forall₂.nil
  | cons hab htl ih =>
      intro h2
      cases h2 with
      | cons hbc htl2 => exact List.Forall₂.cons ⟨_, hab, hbc⟩ (ih htl2)

theorem forall₂_getD {α β : Type} {R : α → β → Prop} (d₁ : α) (d₂ : β) :
    ∀ {l : List α} {ys : List β}, List.Forall₂ R l ys →
      ∀ i, i < l.length → R (l.getD i d₁) (ys.getD i d₂) := by
  intro l ys h
  induction h with
  | nil => intro i hi; cases hi
  | cons hab htl ih =>
      intro i hi
      cases i with
      | zero => exact hab
      | succ i => exact ih i (Nat.lt_of_succ_lt_succ hi)

theorem getD_zipWith_addVec {y s : Mat} {j : ℕ} (h1 : j < y.length) (h2 : j < s.length) :
    (List.zipWith addVec y s).getD j [] = addVec (y.getD j []) (s.getD j []) := by
  simp [List.getD_eq_getElem?_getD, List.getElem?_zipWith, List.getElem?_eq_getElem, h1, h2]

/-- The patch pipeline (`to_patch_embedding`) on a well-formed input with
divisible axes: it succeeds, keeps the batch size, produces
`(H / p1) * (W / p2)` tokens per example, each of width `d_model`. -/
theorem patch_stage_ok {P : PatchEmbedding} (hP : peGood P) {t : Tensor4} (hwf : t.wf)
    (hC : t.C = P.in_channels)
    (hdiv : t.H % P.patch_height = 0 ∧ t.W % P.patch_width = 0) :
    ∃ s, P.to_patch_embedding t = .ok s ∧
      List.Forall₂ (fun im m =>
          mapE P.embedTok (patchesOf t.C t.H t.W P.patch_height P.patch_width im) = .ok m)
        t.data s ∧
      ∀ m ∈ s, m.length = (t.H / P.patch_height) * (t.W / P.patch_width) ∧
        ∀ v ∈ m, v.length = P.d_model := by
  have hpatch_len : ∀ im, ∀ p ∈ patchesOf t.C t.H t.W P.patch_height P.patch_width im,
      p.length = P.patch_dim := by
    intro im p hp
    rw [patchesOf_mem_length p hp, PatchEmbedding.patch_dim, ← hC]
    ring
  have hr : rearrangePatches P.patch_height P.patch_width t
      = .ok (t.data.map (fun im => patchesOf t.C t.H t.W P.patch_height P.patch_width im)) :=
    rearrange_ok_iff.mpr ⟨hdiv, rfl⟩
  obtain ⟨s, hs⟩ : ∃ s, mapE (mapE P.embedTok)
      (t.data.map (fun im => patchesOf t.C t.H t.W P.patch_height P.patch_width im)) = .ok s := by
    apply mapE_ok_of_forall
    intro patches hpat
    obtain ⟨im, _, rfl⟩ := List.mem_map.mp hpat
    apply mapE_ok_of_forall
    intro p hp
    exact ⟨_, (embedTok_ok hP (hpatch_len im p hp)).1⟩
  refine ⟨s, ?_, ?_, ?_⟩
  · simp [PatchEmbedding.to_patch_embedding, hr, hs, Bind.bind, Except.bind]
  · have h2 := mapE_ok_iff.mp hs
    have h3 : List.Forall₂
        (fun im patches => patches = patchesOf t.C t.H t.W P.patch_height P.patch_width im)
        t.data (t.data.map (fun im => patchesOf t.C t.H t.W P.patch_height P.patch_width im)) := by
      rw [List.forall₂_iff_get]
      refine ⟨by rw [List.length_map], ?_⟩
      intro i h₁ h₂
      rw [List.get_eq_getElem, List.get_eq_getElem, List.getElem_map]
    refine forall₂_imp_mem (forall₂_comp h3 h2) ?_
    intro im _ m hm
    obtain ⟨patches, rfl, hmap⟩ := hm
    exact hmap
  · intro m hm
    obtain ⟨patches, hpat, hmap⟩ := mapE_mem_ok hs m hm
    obtain ⟨im, _, rfl⟩ := List.mem_map.mp hpat
    constructor
    · rw [mapE_ok_length hmap, patchesOf_length]
    · intro v hv
      obtain ⟨p, hp, hept⟩ := mapE_mem_ok hmap v hv
      obtain ⟨heq, hlen⟩ := embedTok_ok hP (hpatch_len im p hp)
      rw [heq] at hept
      cases hept
      exact hlen

/-- Model of `PatchEmbedding.forward` succeeds on a well-formed input with divisible
axes whenever the patch count fits the positional embedding (or the embedding
has a single row, which broadcasts), and the output is `B` examples of
`n + 1` tokens of width `d_model`. -/
theorem pe_forward_ok {P : PatchEmbedding} (hP : peGood P) {t : Tensor4} (hwf : t.wf)
    (hC : t.C = P.in_channels)
    (hdiv1 : t.H % P.patch_height = 0) (hdiv2 : t.W % P.patch_width = 0)
    (hn : (t.H / P.patch_height) * (t.W / P.patch_width) ≤ P.num_patches ∨ P.num_patches = 0) :
    ∃ y, P.forward t = .ok y ∧ y.length = t.B ∧
      ∀ m ∈ y, m.length = (t.H / P.patch_height) * (t.W / P.patch_width) + 1 ∧
        ∀ v ∈ m, v.length = P.d_model := by
  obtain ⟨s, hs, hrel, hshape⟩ := patch_stage_ok hP hwf hC ⟨hdiv1, hdiv2⟩
  have hposlen : P.pos_embedding.length = P.num_patches + 1 := hP.2.2.2.2.2.2.2.1
  have hposrows : ∀ r ∈ P.pos_embedding, r.length = P.d_model := hP.2.2.2.2.2.2.2.2.1
  have hcls : P.cls_token.length = P.d_model := hP.2.2.2.2.2.2.2.2.2
  have hrows : ∀ m ∈ s, ∀ r ∈ P.cls_token :: m, r.length = P.d_model := by
    intro m hm r hr
    rcases List.mem_cons.mp hr with hr | hr
    · subst hr; exact hcls
    · exact (hshape m hm).2 r hr
  have hmin : ∀ m ∈ s, min (P.cls_token :: m).length P.pos_embedding.length
      = (P.cls_token :: m).length ∨
      min (P.cls_token :: m).length P.pos_embedding.length = 1 := by
    intro m hm
    rw [List.length_cons, (hshape m hm).1, hposlen]
    omega
  obtain ⟨y, hy⟩ : ∃ y,
      mapE (fun m => sliceAdd P.pos_embedding (P.cls_token :: m)) s = .ok y := by
    apply mapE_ok_of_forall
    intro m hm
    exact sliceAdd_ok_of_min (hmin m hm)
  refine ⟨y, ?_, ?_, ?_⟩
  · simp [PatchEmbedding.forward, hs, hy, Bind.bind, Except.bind]
  · rw [mapE_ok_length hy, ← hrel.length_eq]
    exact hwf.1
  · intro m hm
    obtain ⟨m0, hm0, hsl⟩ := mapE_mem_ok hy m hm
    obtain ⟨hlen, hrws⟩ := sliceAdd_ok_shape hsl (hrows m0 hm0) hposrows
    refine ⟨?_, fun v hv => hrws v hv⟩
    rw [hlen, List.length_cons, (hshape m0 hm0).1]

/-- Exact success condition of `PatchEmbedding.forward` on a well-formed
nonempty batch with the declared channel count: the patch sides must divide
`H` and `W`, and the patch count must fit the positional embedding rows —
except that a single positional row (`num_patches = 0`) broadcasts. -/
theorem pe_forward_isOk_iff {P : PatchEmbedding} (hP : peGood P) {t : Tensor4} (hwf : t.wf)
    (hC : t.C = P.in_channels) (hB : 0 < t.B) :
    (P.forward t).isOk = true ↔
      t.H % P.patch_height = 0 ∧ t.W % P.patch_width = 0 ∧
        ((t.H / P.patch_height) * (t.W / P.patch_width) ≤ P.num_patches ∨
          P.num_patches = 0) := by
  constructor
  · intro h
    obtain ⟨y, hy⟩ := except_isOk_iff.mp h
    unfold PatchEmbedding.forward at hy
    obtain ⟨x1, hx1, hsl⟩ := exceptBind_ok.mp hy
    unfold PatchEmbedding.to_patch_embedding at hx1
    obtain ⟨r, hr, hmap⟩ := exceptBind_ok.mp hx1
    obtain ⟨⟨hdiv1, hdiv2⟩, hreq⟩ := rearrange_ok_iff.mp hr
    refine ⟨hdiv1, hdiv2, ?_⟩
    subst hreq
    have hlens : ∀ m ∈ x1, m.length = (t.H / P.patch_height) * (t.W / P.patch_width) := by
      intro m hm
      obtain ⟨patches, hpat, hmm⟩ := mapE_mem_ok hmap m hm
      obtain ⟨im, _, rfl⟩ := List.mem_map.mp hpat
      rw [mapE_ok_length hmm, patchesOf_length]
    have hx1len : x1 ≠ [] := by
      rw [← List.length_pos]
      rw [mapE_ok_length hmap, List.length_map, hwf.1]
      exact hB
    obtain ⟨m0, hm0⟩ := List.exists_mem_of_ne_nil x1 hx1len
    obtain ⟨z, _, hz⟩ := forall₂_mem_left (mapE_ok_iff.mp hsl) m0 hm0
    have hmin := sliceAdd_ok_min hz
    rw [List.length_cons, hlens m0 hm0, hP.2.2.2.2.2.2.2.1] at hmin
    omega
  · intro ⟨hdiv1, hdiv2, hn⟩
    obtain ⟨y, hy, _, _⟩ := pe_forward_ok hP hwf hC hdiv1 hdiv2 hn
    rw [hy]
    rfl

/-! ### Lemmas about the mean readout -/

theorem getD_addVec {u w : Vec} {j : ℕ} (h1 : j < u.length) (h2 : j < w.length) :
    (addVec u w).getD j 0 = u.getD j 0 + w.getD j 0 := by
  simp [addVec, List.getD_eq_getElem?_getD, List.getElem?_zipWith, List.getElem?_eq_getElem,
    h1, h2]

theorem foldl_addVec_spec {c j : ℕ} (hj : j < c) :
    ∀ {vs : Mat} {v : Vec}, v.length = c → (∀ r ∈ vs, r.length = c) →
      (vs.foldl addVec v).length = c ∧
      (vs.foldl addVec v).getD j 0 = v.getD j 0 + (vs.map (fun r => r.getD j 0)).sum := by
  intro vs
  induction vs with
  | nil =>
      intro v hv _
      simp [hv]
  | cons w vs ih =>
      intro v hv hvs
      have hw : w.length = c := hvs w (List.mem_cons_self _ _)
      have hvw : (addVec v w).length = c := by rw [addVec_length, hv, hw, Nat.min_self]
      have htl := ih hvw (fun r hr => hvs r (List.mem_cons_of_mem _ hr))
      refine ⟨htl.1, ?_⟩
      rw [List.foldl_cons, htl.2, getD_addVec (by omega) (by omega), List.map_cons,
          List.sum_cons]
      ring

theorem foldl_addVec_length {c : ℕ} :
    ∀ {vs : Mat} {v : Vec}, v.length = c → (∀ r ∈ vs, r.length = c) →
      (vs.foldl addVec v).length = c := by
  intro vs
  induction vs with
  | nil =>
      intro v hv _
      simpa using hv
  | cons w vs ih =>
      intro v hv hvs
      rw [List.foldl_cons]
      exact ih (by rw [addVec_length, hv, hvs w (List.mem_cons_self _ _), Nat.min_self])
        (fun r hr => hvs r (List.mem_cons_of_mem _ hr))

theorem getD_map_div {l : Vec} {j : ℕ} {k : Scalar} (h : j < l.length) :
    (l.map (fun s => s / k)).getD j 0 = l.getD j 0 / k := by
  simp [List.getD_eq_getElem?_getD, List.getElem?_map, List.getElem?_eq_getElem, h]

/-- Model of `x.mean(dim = 1)` on a nonempty rectangular matrix really is the
arithmetic mean of the rows: entry `j` is the sum of the `j`-th entries of all
rows, divided by the number of rows. -/
theorem meanDim1_spec {m : Mat} {c : ℕ} (hm : ∀ r ∈ m, r.length = c) (h0 : m ≠ []) :
    (meanDim1 m).length = c ∧ ∀ j, j < c →
      (meanDim1 m).getD j 0 = (m.map (fun r => r.getD j 0)).sum / (m.length : Scalar) := by
  cases m with
  | nil => exact absurd rfl h0
  | cons v vs =>
      have hv : v.length = c := hm v (List.mem_cons_self _ _)
      have hvs : ∀ r ∈ vs, r.length = c := fun r hr => hm r (List.mem_cons_of_mem _ hr)
      constructor
      · rw [meanDim1, List.length_map, foldl_addVec_length hv hvs]
      · intro j hj
        have hfold := foldl_addVec_spec hj hv hvs
        rw [meanDim1, getD_map_div (by rw [hfold.1]; exact hj), hfold.2, List.map_cons,
            List.sum_cons, List.length_cons]

/-! ### Lemmas about the classifier head and the whole model -/

theorem classifierVec_ok {V : ViT} {d nc : ℕ} (hV : clsGood V d nc) {v : Vec}
    (hv : v.length = d) :
    V.classifierVec v = .ok (V.cls_linear.applyRaw (V.cls_ln.f v)) ∧
    (V.cls_linear.applyRaw (V.cls_ln.f v)).length = nc := by
  obtain ⟨hln, hdim, hinF, hW, hb⟩ := hV
  have ha : V.cls_ln.apply v = .ok (V.cls_ln.f v) :=
    lnApply_ok_iff.mpr ⟨hv.trans hdim.symm, rfl⟩
  have hl : V.cls_linear.apply (V.cls_ln.f v) = .ok (V.cls_linear.applyRaw (V.cls_ln.f v)) :=
    linApply_ok_iff.mpr ⟨((hln v).trans hv).trans hinF.symm, rfl⟩
  constructor
  · simp [ViT.classifierVec, ha, hl, Bind.bind, Except.bind]
  · rw [linApplyRaw_length, hW, hb, Nat.min_self]

theorem classify_stage_ok {V : ViT} {d nc : ℕ} (hV : clsGood V d nc) {e : T3}
    (he : tokUnif d e) :
    ∃ c, mapE (mapE V.classifierVec) e = .ok c ∧
      List.Forall₂ (fun me mc => mc.length = me.length ∧ ∀ r ∈ mc, r.length = nc) e c := by
  obtain ⟨c, hc⟩ : ∃ c, mapE (mapE V.classifierVec) e = .ok c := by
    apply mapE_ok_of_forall
    intro m hm
    apply mapE_ok_of_forall
    intro v hv
    exact ⟨_, (classifierVec_ok hV (he m hm v hv)).1⟩
  refine ⟨c, hc, ?_⟩
  refine forall₂_imp_mem (mapE_ok_iff.mp hc) ?_
  intro me hme mc hmc
  refine ⟨mapE_ok_length hmc, ?_⟩
  intro r hr
  obtain ⟨v, hv, hcv⟩ := mapE_mem_ok hmc r hr
  obtain ⟨heq, hlen⟩ := classifierVec_ok hV (he me hme v hv)
  rw [heq] at hcv
  cases hcv
  exact hlen

theorem shape3_length_eq {x y : T3} (h : shape3 y = shape3 x) : y.length = x.length := by
  have h2 := congrArg List.length h
  simpa [shape3] using h2

theorem shape3_mat_lengths {x y : T3} (h : shape3 y = shape3 x) :
    ∀ m ∈ y, ∃ m2 ∈ x, m.length = m2.length := by
  intro m hm
  have hmem : m.map List.length ∈ shape3 y := List.mem_map_of_mem _ hm
  rw [h] at hmem
  obtain ⟨m2, hm2, heq⟩ := List.mem_map.mp hmem
  refine ⟨m2, hm2, ?_⟩
  rw [← List.length_map m List.length, ← heq, List.length_map]

theorem preMean_ok_iff {V : ViT} {t : Tensor4} {z : T3} :
    V.preMean t = .ok z ↔
      ∃ s e, V.patch_embedding_layer.forward t = .ok s ∧
        encApply V.transformer_encoder s = .ok e ∧
        mapE (mapE V.classifierVec) e = .ok z := by
  unfold ViT.preMean
  constructor
  · intro h
    obtain ⟨s, hs, h2⟩ := exceptBind_ok.mp h
    obtain ⟨e, he, h3⟩ := exceptBind_ok.mp h2
    exact ⟨s, e, hs, he, h3⟩
  · intro ⟨s, e, hs, he, h3⟩
    simp [hs, he, h3, Bind.bind, Except.bind]

theorem vit_forward_eq_iff {V : ViT} {t : Tensor4} {out : Mat} :
    V.forward t = .ok out ↔ ∃ c, V.preMean t = .ok c ∧ out = c.map meanDim1 := by
  unfold ViT.forward
  rw [exceptMap_ok]

theorem encApply_append (bs : List TransformerBlock) (bk : TransformerBlock) :
    ∀ x : T3, encApply (bs ++ [bk]) x = (encApply bs x) >>= bk.forward := by
  induction bs with
  | nil =>
      intro x
      show encApply [bk] x = (Except.ok x) >>= bk.forward
      cases h : bk.forward x with
      | error e => simp [encApply, h, Bind.bind, Except.bind]
      | ok y => simp [encApply, h, Bind.bind, Except.bind]
  | cons b bs ih =>
      intro x
      show (b.forward x) >>= encApply (bs ++ [bk]) = ((b.forward x) >>= encApply bs) >>= bk.forward
      cases h : b.forward x with
      | error e => simp [Bind.bind, Except.bind]
      | ok y => simp [Bind.bind, Except.bind, ih y]

/-- The whole model succeeds on a well-formed input that the patch embedding
accepts, and returns one row per batch element, each of length `num_classes`. -/
theorem vit_forward_ok {V : ViT} {nc : ℕ}
    (hpe : peGood V.patch_embedding_layer)
    (hbs : ∀ b ∈ V.transformer_encoder, blockGood b V.patch_embedding_layer.d_model)
    (hcls : clsGood V V.patch_embedding_layer.d_model nc)
    {t : Tensor4} (hwf : t.wf) (hC : t.C = V.patch_embedding_layer.in_channels)
    (hdiv1 : t.H % V.patch_embedding_layer.patch_height = 0)
    (hdiv2 : t.W % V.patch_embedding_layer.patch_width = 0)
    (hn : (t.H / V.patch_embedding_layer.patch_height) *
            (t.W / V.patch_embedding_layer.patch_width)
          ≤ V.patch_embedding_layer.num_patches ∨
        V.patch_embedding_layer.num_patches = 0) :
    ∃ out, V.forward t = .ok out ∧ out.length = t.B ∧ ∀ r ∈ out, r.length = nc := by
  obtain ⟨s, hs, hsB, hss⟩ := pe_forward_ok hpe hwf hC hdiv1 hdiv2 hn
  have hsu : tokUnif V.patch_embedding_layer.d_model s :=
    fun m hm v hv => (hss m hm).2 v hv
  obtain ⟨e, he, hes⟩ := enc_ok hbs hsu
  obtain ⟨c, hc, hrel⟩ := classify_stage_ok hcls (tokUnif_of_shape3_eq hes hsu)
  have hpre : V.preMean t = .ok c := preMean_ok_iff.mpr ⟨s, e, hs, he, hc⟩
  refine ⟨c.map meanDim1, ?_, ?_, ?_⟩
  · exact vit_forward_eq_iff.mpr ⟨c, hpre, rfl⟩
  · rw [List.length_map, ← hrel.length_eq, shape3_length_eq hes, hsB]
  · intro r hr
    obtain ⟨m, hm, rfl⟩ := List.mem_map.mp hr
    obtain ⟨me, hme, hmlen, hrows⟩ := forall₂_mem_right hrel m hm
    obtain ⟨ms, hms, hmelen⟩ := shape3_mat_lengths hes me hme
    have hm0 : m ≠ [] := by
      rw [← List.length_pos, hmlen, hmelen, (hss ms hms).1]
      omega
    exact (meanDim1_spec hrows hm0).1

/-! ### Lemmas about module construction -/

theorem genVec_length (f : ℕ → Scalar) (n : ℕ) : (genVec f n).length = n := by
  simp [genVec]

theorem genMat_length (f : ℕ → ℕ → Scalar) (r c : ℕ) : (genMat f r c).length = r := by
  simp [genMat]

theorem genMat_mem_length (f : ℕ → ℕ → Scalar) (r c : ℕ) :
    ∀ row ∈ genMat f r c, row.length = c := by
  intro row hrow
  obtain ⟨i, _, rfl⟩ := List.mem_map.mp hrow
  exact genVec_length _ _

theorem pyEval_ok_iff {x : PyInput} {l : List ℕ} : pyEval x = .ok l ↔ x = .pystr l := by
  cases x <;> simp [pyEval]

theorem unpack2_ok_iff {l : List ℕ} {p : ℕ × ℕ} :
    unpack2 l = .ok p ↔ l = [p.1, p.2] := by
  obtain ⟨a, b⟩ := p
  rcases l with _ | ⟨x, _ | ⟨y, _ | ⟨z, l⟩⟩⟩ <;> simp [unpack2]

/-- Successful `PatchEmbedding.__init__` forces both shape arguments to be
strings denoting pairs, with nonzero patch sides, and determines every field
of the resulting module state. -/
theorem mkPatchEmbedding_ok_elim {ic dm : ℕ} {img pat : PyInput} {pp : PatchPrims}
    {P : PatchEmbedding} (h : mkPatchEmbedding ic dm img pat pp = .ok P) :
    ∃ ph pw ih iw, pat = .pystr [ph, pw] ∧ img = .pystr [ih, iw] ∧
      ¬(ph = 0 ∨ pw = 0) ∧
      P = { in_channels := ic, d_model := dm, patch_height := ph, patch_width := pw,
            image_height := ih, image_width := iw,
            ln_patch := ⟨ic * ph * pw, pp.norm_patch⟩,
            proj := ⟨ic * ph * pw, genMat pp.wproj dm (ic * ph * pw), genVec pp.bproj dm⟩,
            ln_embed := ⟨dm, pp.norm_embed⟩,
            pos_embedding := genMat pp.wpos ((ih / ph) * (iw / pw) + 1) dm,
            cls_token := genVec pp.wcls dm } := by
  unfold mkPatchEmbedding at h
  obtain ⟨pl, hpl, h⟩ := exceptBind_ok.mp h
  obtain ⟨pq, hpq, h⟩ := exceptBind_ok.mp h
  obtain ⟨il, hil, h⟩ := exceptBind_ok.mp h
  obtain ⟨iq, hiq, h⟩ := exceptBind_ok.mp h
  refine ⟨pq.1, pq.2, iq.1, iq.2, ?_, ?_, ?_, ?_⟩
  · rw [pyEval_ok_iff.mp hpl, unpack2_ok_iff.mp hpq]
  · rw [pyEval_ok_iff.mp hil, unpack2_ok_iff.mp hiq]
  · intro h0
    rw [if_pos h0] at h
    cases h
  · by_cases h0 : pq.1 = 0 ∨ pq.2 = 0
    · rw [if_pos h0] at h
      cases h
    · rw [if_neg h0] at h
      cases h
      rfl

theorem mkPatchEmbedding_peGood {ic dm : ℕ} {img pat : PyInput} {pp : PatchPrims}
    {P : PatchEmbedding} (h : mkPatchEmbedding ic dm img pat pp = .ok P)
    (h1 : fGood pp.norm_patch) (h2 : fGood pp.norm_embed) :
    peGood P ∧ P.d_model = dm ∧ P.in_channels = ic := by
  obtain ⟨ph, pw, ih, iw, _, _, _, hP⟩ := mkPatchEmbedding_ok_elim h
  subst hP
  refine ⟨⟨h1, ?_, ?_, ?_, ?_, h2, rfl, ?_, ?_, ?_⟩, rfl, rfl⟩
  · rfl
  · rfl
  · exact genMat_length _ _ _
  · exact genVec_length _ _
  · exact genMat_length _ _ _
  · exact genMat_mem_length _ _ _
  · exact genVec_length _ _

theorem mkTransformerBlock_blockGood (d mlp : ℕ) (bp : BlockPrims)
    (h1 : fGood bp.norm_attn) (h2 : attnGood bp.attn) (h3 : fGood bp.norm_ff)
    (h4 : fGood bp.dropf1) (h5 : fGood bp.dropf2) :
    blockGood (mkTransformerBlock d mlp bp) d := by
  refine ⟨⟨h1, rfl, h2⟩, h3, rfl, rfl, ?_, h4, ?_, ?_, ?_, h5⟩ <;>
    simp [mkTransformerBlock, genVec_length, genMat_length]

theorem mkViT_ok_elim {img pat : PyInput} {ic d nl mlp nh nc : ℕ} {vp : VitPrims} {V : ViT}
    (h : mkViT img ic pat d nl mlp nh nc vp = .ok V) :
    ∃ P, mkPatchEmbedding ic d img pat vp.patchPrims = .ok P ∧
      V = { patch_embedding_layer := P,
            transformer_encoder :=
              (List.range nl).map (fun i => mkTransformerBlock d mlp (vp.blockPrims i)),
            cls_ln := ⟨d, vp.norm_cls⟩,
            cls_linear := ⟨d, genMat vp.wc nc d, genVec vp.bc nc⟩ } := by
  unfold mkViT at h
  obtain ⟨P, hP, h⟩ := exceptBind_ok.mp h
  cases h
  exact ⟨P, hP, rfl⟩

/-- Everything `vit_forward_ok` needs holds of a `ViT` built by `__init__`
from contract-satisfying primitives. -/
theorem mkViT_good {img pat : PyInput} {ic d nl mlp nh nc : ℕ} {vp : VitPrims} {V : ViT}
    (h : mkViT img ic pat d nl mlp nh nc vp = .ok V) (hvp : vitPrimsGood vp) :
    peGood V.patch_embedding_layer ∧ V.patch_embedding_layer.d_model = d ∧
    V.patch_embedding_layer.in_channels = ic ∧
    (∀ b ∈ V.transformer_encoder, blockGood b d) ∧
    V.transformer_encoder.length = nl ∧
    clsGood V d nc := by
  obtain ⟨P, hP, hV⟩ := mkViT_ok_elim h
  obtain ⟨hpe, hdm, hic⟩ := mkPatchEmbedding_peGood hP hvp.1 hvp.2.1
  subst hV
  refine ⟨hpe, hdm, hic, ?_, ?_, ?_⟩
  · intro b hb
    obtain ⟨i, _, rfl⟩ := List.mem_map.mp hb
    obtain ⟨g1, g2, g3, g4, g5⟩ := hvp.2.2.1 i
    exact mkTransformerBlock_blockGood d mlp (vp.blockPrims i) g1 g2 g3 g4 g5
  · rw [List.length_map, List.length_range]
  · exact ⟨hvp.2.2.2, rfl, rfl, genMat_length _ _ _, genVec_length _ _⟩

theorem sliceAdd_full {pos y : Mat} (h : pos.length = y.length) :
    sliceAdd pos y = .ok (List.zipWith addVec y pos) := by
  have htake : pos.take y.length = pos := List.take_of_length_le (le_of_eq h)
  show (if (pos.take y.length).length = y.length then
      Except.ok (List.zipWith addVec y (pos.take y.length))
    else if (pos.take y.length).length = 1 then
      Except.ok (y.map (fun r => addVec r ((pos.take y.length).getD 0 [])))
    else Except.error "pos_embedding add: size mismatch at dimension 1") = _
  rw [htake, if_pos h]

theorem getD_mem_of_lt {α : Type} {l : List α} {i : ℕ} {d : α} (h : i < l.length) :
    l.getD i d ∈ l := by
  rw [List.getD_eq_getElem?_getD, List.getElem?_eq_getElem h]
  exact List.getElem_mem h

/-! ### The claims -/

/-- C4: `TransformerBlock.forward` is exactly the residual composition: with
`a = msa_block(x) + x`, the output is `ff_block(a) + a`; the residual
additions happen in `TransformerBlock` itself (the sub-block outputs enter
bare into `addT3`). -/
theorem transformer_block_residual_c4 (Bk : TransformerBlock) (x : T3) (z : T3) :
    Bk.forward x = .ok z ↔
      ∃ m f, Bk.msa_block.forward x = .ok m ∧
        Bk.ff_block.forward (addT3 m x) = .ok f ∧ z = addT3 f (addT3 m x) := by
  unfold TransformerBlock.forward
  constructor
  · intro h
    obtain ⟨m, hm, h⟩ := exceptBind_ok.mp h
    obtain ⟨f, hf, h⟩ := exceptBind_ok.mp h
    cases h
    exact ⟨m, f, hm, hf, rfl⟩
  · intro ⟨m, f, hm, hf, hz⟩
    subst hz
    simp [hm, hf, Bind.bind, Except.bind, pure, Except.pure]

/-- C7: `MultiHeadAttentionBlock.forward` layer-normalises its input and
self-attends with the normalised tensor as query, key and value, returning
only the attention output (the weights are dropped, no residual is added);
and the block `LayerNorm` is a `LayerNorm(d_model)`. -/
theorem msa_wrapper_c7 :
    (∀ (M : MultiHeadAttentionBlock) (x y : T3),
      M.forward x = .ok y ↔
        ∃ nx, lnApply3 M.normlayer x = .ok nx ∧ y = (M.attention nx nx nx).1) ∧
    (∀ (d mlp : ℕ) (bp : BlockPrims),
      (mkTransformerBlock d mlp bp).msa_block.normlayer.dim = d) := by
  constructor
  · intro M x y
    unfold MultiHeadAttentionBlock.forward
    constructor
    · intro h
      obtain ⟨nx, hnx, h⟩ := exceptBind_ok.mp h
      cases h
      exact ⟨nx, hnx, rfl⟩
    · intro ⟨nx, hnx, hy⟩
      subst hy
      simp [hnx, Bind.bind, Except.bind, pure, Except.pure]
  · intro d mlp bp
    rfl

/-- C8: `FeedForward` computes
`Dropout(Linear2(Dropout(GELU(Linear1(LayerNorm(x))))))` per token — exactly
two linear layers separated by `GELU`, a dropout after each linear layer, on
the layer-normalised input — and on a rank-3 tensor it acts tokenwise; the
two linear layers of a constructed block map `d_model → mlp_size → d_model`. -/
theorem feedforward_mlp_c8 :
    (∀ (F : FeedForward) (v y : Vec),
      F.forwardVec v = .ok y ↔
        ∃ a b1 b2, F.layernorm.apply v = .ok a ∧ F.lin1.apply a = .ok b1 ∧
          F.lin2.apply (F.drop1 (b1.map F.gelu)) = .ok b2 ∧ y = F.drop2 b2) ∧
    (∀ (F : FeedForward) (x : T3), F.forward x = mapE (mapE F.forwardVec) x) ∧
    (∀ (d mlp : ℕ) (bp : BlockPrims),
      (mkTransformerBlock d mlp bp).ff_block.layernorm.dim = d ∧
      (mkTransformerBlock d mlp bp).ff_block.lin1.inF = d ∧
      (mkTransformerBlock d mlp bp).ff_block.lin1.W.length = mlp ∧
      (mkTransformerBlock d mlp bp).ff_block.lin2.inF = mlp ∧
      (mkTransformerBlock d mlp bp).ff_block.lin2.W.length = d) := by
  refine ⟨?_, fun F x => rfl, ?_⟩
  · intro F v y
    unfold FeedForward.forwardVec FeedForward.mlpVec
    constructor
    · intro h
      obtain ⟨a, ha, h⟩ := exceptBind_ok.mp h
      obtain ⟨b1, hb1, h⟩ := exceptBind_ok.mp h
      obtain ⟨b2, hb2, h⟩ := exceptBind_ok.mp h
      cases h
      exact ⟨a, b1, b2, ha, hb1, hb2, rfl⟩
    · intro ⟨a, b1, b2, ha, hb1, hb2, hy⟩
      subst hy
      simp [ha, hb1, hb2, Bind.bind, Except.bind, pure, Except.pure]
  · intro d mlp bp
    refine ⟨rfl, rfl, ?_, rfl, ?_⟩ <;> simp [mkTransformerBlock, genMat_length]

/-- C3: `PatchEmbedding.__init__` (and hence `ViT.__init__`) succeeds only
when both shape arguments are strings whose `eval` yields a pair; passing an
actual tuple for either argument — including the `ViT` defaults
`(160, 106)` and `(32, 53)` — makes `eval` raise a `TypeError`. -/
theorem eval_requires_string_c3 :
    (∀ (ic dm : ℕ) (img pat : PyInput) (pp : PatchPrims) (P : PatchEmbedding),
      mkPatchEmbedding ic dm img pat pp = .ok P →
        (∃ a b, img = .pystr [a, b]) ∧ ∃ c d2, pat = .pystr [c, d2]) ∧
    (∀ (ic dm : ℕ) (l : List ℕ) (pat : PyInput) (pp : PatchPrims),
      (mkPatchEmbedding ic dm (.pytuple l) pat pp).isOk = false) ∧
    (∀ (ic dm : ℕ) (img : PyInput) (l : List ℕ) (pp : PatchPrims),
      (mkPatchEmbedding ic dm img (.pytuple l) pp).isOk = false) ∧
    (∀ vp : VitPrims, (vitDefault vp).isOk = false) ∧
    default_img_shape = .pytuple [160, 106] ∧
    default_patch_shape = .pytuple [32, 53] := by
  refine ⟨?_, ?_, ?_, ?_, rfl, rfl⟩
  · intro ic dm img pat pp P h
    obtain ⟨ph, pw, ih, iw, hpat, himg, _, _⟩ := mkPatchEmbedding_ok_elim h
    exact ⟨⟨ih, iw, himg⟩, ⟨ph, pw, hpat⟩⟩
  · intro ic dm l pat pp
    cases pat with
    | pytuple l2 =>
        simp [mkPatchEmbedding, pyEval, Bind.bind, Except.bind, Except.isOk, Except.toBool]
    | pystr l2 =>
        rcases l2 with _ | ⟨a, _ | ⟨b, _ | ⟨c, l2⟩⟩⟩ <;>
          simp [mkPatchEmbedding, pyEval, unpack2, Bind.bind, Except.bind,
            Except.isOk, Except.toBool]
  · intro ic dm img l pp
    simp [mkPatchEmbedding, pyEval, Bind.bind, Except.bind, Except.isOk, Except.toBool]
  · intro vp
    rfl

/-- C1: on every input batch the model accepts (forward returns a value), the
result of `ViT.forward` — patch embedding, transformer encoder, classifier
head, then the mean over the token dimension — has one row per batch element,
each of length `num_classes`. -/
theorem vit_output_shape_c1 {img pat : PyInput} {ic d nl mlp nh nc : ℕ} {vp : VitPrims}
    {V : ViT} (hmk : mkViT img ic pat d nl mlp nh nc vp = .ok V) (hvp : vitPrimsGood vp)
    {t : Tensor4} (hwf : t.wf) (hC : t.C = ic) (hB : 0 < t.B)
    {out : Mat} (hout : V.forward t = .ok out) :
    out.length = t.B ∧ ∀ r ∈ out, r.length = nc := by
  obtain ⟨hpe, hdm, hic, hbs, hnl, hcls⟩ := mkViT_good hmk hvp
  subst hdm
  obtain ⟨c, hcpre, hmap⟩ := vit_forward_eq_iff.mp hout
  obtain ⟨s, e, hs, he, hcl⟩ := preMean_ok_iff.mp hcpre
  have hok : (V.patch_embedding_layer.forward t).isOk = true := by rw [hs]; rfl
  have hC2 : t.C = V.patch_embedding_layer.in_channels := by rw [hC, hic]
  obtain ⟨hdiv1, hdiv2, hn⟩ := (pe_forward_isOk_iff hpe hwf hC2 hB).mp hok
  obtain ⟨out2, hout2, hlen, hrows⟩ := vit_forward_ok hpe hbs hcls hwf hC2 hdiv1 hdiv2 hn
  have heq : out = out2 := by
    have h2 := hout.symm.trans hout2
    cases h2
    rfl
  subst heq
  exact ⟨hlen, hrows⟩

/-- C2: `ViT.__init__` stacks exactly `num_transformer_layers` sequential
`TransformerBlock`s between the patch embedding and the classifier head
(`LayerNorm(d_model)` then `Linear(d_model, num_classes)`); the pre-mean
computation is exactly classifier ∘ encoder ∘ patch-embedding, and the
sequential encoder applies a trailing block last. -/
theorem vit_stack_composition_c2 {img pat : PyInput} {ic d nl mlp nh nc : ℕ}
    {vp : VitPrims} {V : ViT} (hmk : mkViT img ic pat d nl mlp nh nc vp = .ok V) :
    V.transformer_encoder.length = nl ∧
    (∀ i, i < nl →
      V.transformer_encoder[i]? = some (mkTransformerBlock d mlp (vp.blockPrims i))) ∧
    V.cls_ln.dim = d ∧ V.cls_linear.inF = d ∧ V.cls_linear.W.length = nc ∧
    (∀ (t : Tensor4) (z : T3), V.preMean t = .ok z ↔
      ∃ s e, V.patch_embedding_layer.forward t = .ok s ∧
        encApply V.transformer_encoder s = .ok e ∧
        mapE (mapE V.classifierVec) e = .ok z) ∧
    (∀ (bs : List TransformerBlock) (bk : TransformerBlock) (x : T3),
      encApply (bs ++ [bk]) x = encApply bs x >>= bk.forward) := by
  obtain ⟨P, hP, hV⟩ := mkViT_ok_elim hmk
  subst hV
  refine ⟨?_, ?_, rfl, rfl, genMat_length _ _ _, fun t z => preMean_ok_iff,
    fun bs bk x => encApply_append bs bk x⟩
  · rw [List.length_map, List.length_range]
  · intro i hi
    simp [List.getElem?_map, List.getElem?_range, hi]

/-- C9: the final regression value of each batch element is the arithmetic
mean, over all `num_patches + 1` token positions, of the per-token classifier
outputs — entry `j` of the readout is the sum over every token position
divided by the token count, not the class-token entry alone. -/
theorem mean_readout_c9 {V : ViT} {nc : ℕ}
    (hpe : peGood V.patch_embedding_layer)
    (hbs : ∀ b ∈ V.transformer_encoder, blockGood b V.patch_embedding_layer.d_model)
    (hcls : clsGood V V.patch_embedding_layer.d_model nc)
    {t : Tensor4} (hwf : t.wf) (hC : t.C = V.patch_embedding_layer.in_channels)
    (hH : t.H = V.patch_embedding_layer.image_height)
    (hW : t.W = V.patch_embedding_layer.image_width)
    (hdiv1 : t.H % V.patch_embedding_layer.patch_height = 0)
    (hdiv2 : t.W % V.patch_embedding_layer.patch_width = 0) :
    ∃ c out, V.preMean t = .ok c ∧ V.forward t = .ok out ∧ out = c.map meanDim1 ∧
      (∀ m ∈ c, m.length = V.patch_embedding_layer.num_patches + 1) ∧
      ∀ m ∈ c, ∀ j, j < nc →
        (meanDim1 m).getD j 0 = (m.map (fun r => r.getD j 0)).sum / (m.length : Scalar) := by
  have hn : (t.H / V.patch_embedding_layer.patch_height) *
      (t.W / V.patch_embedding_layer.patch_width)
      ≤ V.patch_embedding_layer.num_patches ∨ V.patch_embedding_layer.num_patches = 0 := by
    rw [hH, hW]
    exact Or.inl le_rfl
  obtain ⟨s, hs, hsB, hss⟩ := pe_forward_ok hpe hwf hC hdiv1 hdiv2 hn
  have hsu : tokUnif V.patch_embedding_layer.d_model s :=
    fun m hm v hv => (hss m hm).2 v hv
  obtain ⟨e, he, hes⟩ := enc_ok hbs hsu
  obtain ⟨c, hc, hrel⟩ := classify_stage_ok hcls (tokUnif_of_shape3_eq hes hsu)
  have hpre : V.preMean t = .ok c := preMean_ok_iff.mpr ⟨s, e, hs, he, hc⟩
  have hmlen : ∀ m ∈ c, m.length = V.patch_embedding_layer.num_patches + 1 := by
    intro m hm
    obtain ⟨me, hme, hmlen, _⟩ := forall₂_mem_right hrel m hm
    obtain ⟨ms, hms, hmelen⟩ := shape3_mat_lengths hes me hme
    rw [hmlen, hmelen, (hss ms hms).1, hH, hW]
    rfl
  refine ⟨c, c.map meanDim1, hpre, vit_forward_eq_iff.mpr ⟨c, hpre, rfl⟩, rfl, hmlen, ?_⟩
  intro m hm j hj
  obtain ⟨me, hme, _, hrows⟩ := forall₂_mem_right hrel m hm
  have hne : m ≠ [] := by
    rw [← List.length_pos, hmlen m hm]
    omega
  exact (meanDim1_spec hrows hne).2 j hj

/-- C5: on an input matching the configured (divisible) image shape,
`PatchEmbedding.forward` first runs the patch pipeline, then prepends one
copy of the class token at sequence position 0 of every batch element, then
adds the learned positional embedding elementwise to all `num_patches + 1`
positions (the full `pos_embedding`, row by row). -/
theorem patch_embedding_order_c5 {P : PatchEmbedding} (hP : peGood P) {t : Tensor4}
    (hwf : t.wf) (hC : t.C = P.in_channels)
    (hH : t.H = P.image_height) (hW : t.W = P.image_width)
    (hdiv1 : t.H % P.patch_height = 0) (hdiv2 : t.W % P.patch_width = 0) :
    ∃ s y, P.to_patch_embedding t = .ok s ∧ P.forward t = .ok y ∧
      (∀ m ∈ s, m.length = P.num_patches) ∧
      List.Forall₂ (fun m ym => ym = List.zipWith addVec (P.cls_token :: m) P.pos_embedding)
        s y := by
  obtain ⟨s, hs, hrel, hshape⟩ := patch_stage_ok hP hwf hC ⟨hdiv1, hdiv2⟩
  have hslen : ∀ m ∈ s, m.length = P.num_patches := by
    intro m hm
    rw [(hshape m hm).1, hH, hW]
    rfl
  have hsl : ∀ m ∈ s, sliceAdd P.pos_embedding (P.cls_token :: m)
      = .ok (List.zipWith addVec (P.cls_token :: m) P.pos_embedding) := by
    intro m hm
    apply sliceAdd_full
    rw [hP.2.2.2.2.2.2.2.1, List.length_cons, hslen m hm]
  obtain ⟨y, hy⟩ : ∃ y,
      mapE (fun m => sliceAdd P.pos_embedding (P.cls_token :: m)) s = .ok y :=
    mapE_ok_of_forall (fun m hm => ⟨_, hsl m hm⟩)
  refine ⟨s, y, hs, ?_, hslen, ?_⟩
  · simp [PatchEmbedding.forward, hs, hy, Bind.bind, Except.bind]
  · refine forall₂_imp_mem (mapE_ok_iff.mp hy) ?_
    intro m hm ym hym
    rw [hsl m hm] at hym
    cases hym
    rfl

/-- C6 (amended): the claim holds once the configured patch shape divides the
configured image shape (which the code comment `#should be factor of
160 and 106` documents; for non-dividing shapes einops raises, see the
counterexample).  On an input matching the configured image shape the output
has exactly `(H / p1) * (W / p2) + 1 = num_patches + 1` tokens of width
`d_model` per example, each flattened patch has `in_channels * p1 * p2`
entries, and patch token `i + 1` is obtained from flattened patch `i` alone
via the norm/`Linear(patch_dim, d_model)`/norm pipeline (plus its positional
row). -/
theorem patch_token_count_c6_amended {P : PatchEmbedding} (hP : peGood P) {t : Tensor4}
    (hwf : t.wf) (hC : t.C = P.in_channels)
    (hH : t.H = P.image_height) (hW : t.W = P.image_width)
    (hdiv1 : t.H % P.patch_height = 0) (hdiv2 : t.W % P.patch_width = 0) :
    ∃ r y, rearrangePatches P.patch_height P.patch_width t = .ok r ∧
      P.forward t = .ok y ∧ y.length = t.B ∧
      (∀ patches ∈ r, patches.length = (t.H / P.patch_height) * (t.W / P.patch_width) ∧
        ∀ p ∈ patches, p.length = P.in_channels * P.patch_height * P.patch_width) ∧
      List.Forall₂ (fun patches m =>
        m.length = (t.H / P.patch_height) * (t.W / P.patch_width) + 1 ∧
        (∀ v ∈ m, v.length = P.d_model) ∧
        ∀ i, i < patches.length →
          m.getD (i + 1) [] =
            addVec (P.ln_embed.f (P.proj.applyRaw (P.ln_patch.f (patches.getD i []))))
              (P.pos_embedding.getD (i + 1) [])) r y := by
  obtain ⟨s, hs, hrel, hshape⟩ := patch_stage_ok hP hwf hC ⟨hdiv1, hdiv2⟩
  have hslen : ∀ m ∈ s, m.length = P.num_patches := by
    intro m hm
    rw [(hshape m hm).1, hH, hW]
    rfl
  have hposlen : P.pos_embedding.length = P.num_patches + 1 := hP.2.2.2.2.2.2.2.1
  have hsl : ∀ m ∈ s, sliceAdd P.pos_embedding (P.cls_token :: m)
      = .ok (List.zipWith addVec (P.cls_token :: m) P.pos_embedding) := by
    intro m hm
    apply sliceAdd_full
    rw [hposlen, List.length_cons, hslen m hm]
  obtain ⟨y, hy⟩ : ∃ y,
      mapE (fun m => sliceAdd P.pos_embedding (P.cls_token :: m)) s = .ok y :=
    mapE_ok_of_forall (fun m hm => ⟨_, hsl m hm⟩)
  have hpatch_len : ∀ im, ∀ p ∈ patchesOf t.C t.H t.W P.patch_height P.patch_width im,
      p.length = P.patch_dim := by
    intro im p hp
    rw [patchesOf_mem_length p hp, PatchEmbedding.patch_dim, ← hC]
    ring
  have hr : rearrangePatches P.patch_height P.patch_width t
      = .ok (t.data.map (fun im => patchesOf t.C t.H t.W P.patch_height P.patch_width im)) :=
    rearrange_ok_iff.mpr ⟨⟨hdiv1, hdiv2⟩, rfl⟩
  have hmap2 : mapE (mapE P.embedTok)
      (t.data.map (fun im => patchesOf t.C t.H t.W P.patch_height P.patch_width im))
      = .ok s := by
    unfold PatchEmbedding.to_patch_embedding at hs
    obtain ⟨r0, hr0, hmm⟩ := exceptBind_ok.mp hs
    have hr0eq := hr0.symm.trans hr
    cases hr0eq
    exact hmm
  refine ⟨t.data.map (fun im => patchesOf t.C t.H t.W P.patch_height P.patch_width im), y,
    hr, ?_, ?_, ?_, ?_⟩
  · simp [PatchEmbedding.forward, PatchEmbedding.to_patch_embedding, hr, hmap2, hy,
      Bind.bind, Except.bind]
  · rw [mapE_ok_length hy, ← hrel.length_eq]
    exact hwf.1
  · intro patches hpat
    obtain ⟨im, _, rfl⟩ := List.mem_map.mp hpat
    refine ⟨patchesOf_length _ _ _ _ _ _, ?_⟩
    intro p hp
    rw [hpatch_len im p hp, PatchEmbedding.patch_dim]
  · have hrs : List.Forall₂ (fun patches m => mapE P.embedTok patches = .ok m)
        (t.data.map (fun im => patchesOf t.C t.H t.W P.patch_height P.patch_width im)) s :=
      List.forall₂_map_left_iff.mpr hrel
    refine forall₂_imp_mem (forall₂_comp hrs (mapE_ok_iff.mp hy)) ?_
    intro patches hpat ym hym
    obtain ⟨m, hmap, hsladd⟩ := hym
    obtain ⟨im, _, hpatches⟩ := List.mem_map.mp hpat
    have hplen : patches.length = (t.H / P.patch_height) * (t.W / P.patch_width) := by
      rw [← hpatches, patchesOf_length]
    have hpdim : ∀ p ∈ patches, p.length = P.patch_dim := by
      intro p hp
      rw [← hpatches] at hp
      exact hpatch_len im p hp
    have hmlen : m.length = patches.length := mapE_ok_length hmap
    have hmtok : ∀ v ∈ m, v.length = P.d_model := by
      intro v hv
      obtain ⟨p, hp, hept⟩ := mapE_mem_ok hmap v hv
      obtain ⟨heq, hlen⟩ := embedTok_ok hP (hpdim p hp)
      rw [heq] at hept
      cases hept
      exact hlen
    have hnum : patches.length = P.num_patches := by
      rw [hplen, hH, hW]
      rfl
    have hfull : sliceAdd P.pos_embedding (P.cls_token :: m)
        = .ok (List.zipWith addVec (P.cls_token :: m) P.pos_embedding) := by
      apply sliceAdd_full
      rw [hposlen, List.length_cons, hmlen, hnum]
    rw [hfull] at hsladd
    cases hsladd
    have hylen : (List.zipWith addVec (P.cls_token :: m) P.pos_embedding).length
        = patches.length + 1 := by
      rw [List.length_zipWith, List.length_cons, hmlen, hposlen, hnum, Nat.min_self]
    refine ⟨by rw [hylen, hplen], ?_, ?_⟩
    · apply mem_zipWith_addVec
      · intro rr hrr
        rcases List.mem_cons.mp hrr with hrr | hrr
        · subst hrr
          exact hP.2.2.2.2.2.2.2.2.2
        · exact hmtok rr hrr
      · exact hP.2.2.2.2.2.2.2.2.1
    · intro i hi
      have hi1 : i + 1 < (P.cls_token :: m).length := by
        rw [List.length_cons, hmlen]
        omega
      have hi2 : i + 1 < P.pos_embedding.length := by
        rw [hposlen, ← hnum]
        omega
      rw [getD_zipWith_addVec hi1 hi2, List.getD_cons_succ]
      have hptok := forall₂_getD ([] : Vec) ([] : Vec) (mapE_ok_iff.mp hmap) i hi
      obtain ⟨heq, _⟩ := embedTok_ok hP (hpdim _ (getD_mem_of_lt hi))
      rw [heq] at hptok
      injection hptok with h2
      rw [← h2]

/-- C6 is false as stated: for the constructed `PatchEmbedding` with image
`(4, 4)` and patch `(3, 3)` (floor division gives
`(4 / 3) * (4 / 3) + 1 = 2` expected tokens) and the well-formed `[1, 1, 4, 4]`
input matching the configured image shape, `forward` produces no output at
all — einops raises because `3` does not divide `4`. -/
theorem patch_token_count_c6_counterexample :
    mkPatchEmbedding 1 1 (.pystr [4, 4]) (.pystr [3, 3]) idPatchPrims = .ok peC6 ∧
    tC6.wf ∧ tC6.C = peC6.in_channels ∧ tC6.H = peC6.image_height ∧
    tC6.W = peC6.image_width ∧
    (tC6.H / peC6.patch_height) * (tC6.W / peC6.patch_width) + 1 = 2 ∧
    (peC6.forward tC6).isOk = false :=
  ⟨rfl, by decide, rfl, rfl, rfl, rfl, rfl⟩

/-- C10 (amended): on a well-formed nonempty batch of shape
`[B, in_channels, H, W]`, `PatchEmbedding.forward` succeeds exactly when the
patch sides divide `H` and `W` and either `(H / p1) * (W / p2) ≤ num_patches`
or `num_patches = 0` — in the latter case the single positional row
broadcasts over the token dimension instead of raising, so forward is total
on strictly more inputs than the precondition of the claim allows. -/
theorem pe_totality_c10_amended {P : PatchEmbedding} (hP : peGood P) {t : Tensor4}
    (hwf : t.wf) (hC : t.C = P.in_channels) (hB : 0 < t.B) :
    (P.forward t).isOk = true ↔
      t.H % P.patch_height = 0 ∧ t.W % P.patch_width = 0 ∧
        ((t.H / P.patch_height) * (t.W / P.patch_width) ≤ P.num_patches ∨
          P.num_patches = 0) :=
  pe_forward_isOk_iff hP hwf hC hB

/-- C10 is false as stated: for the constructed `PatchEmbedding` with image
`(1, 1)` and patch `(2, 2)` (`num_patches = 0`) and the well-formed
`[1, 1, 2, 2]` input, both divisibility conditions hold but
`(H / p1) * (W / p2) = 1 > 0 = num_patches`, violating the stated
precondition — yet `forward` succeeds (the single `pos_embedding` row
broadcasts) instead of failing with a shape error. -/
theorem pe_totality_c10_counterexample :
    mkPatchEmbedding 1 1 (.pystr [1, 1]) (.pystr [2, 2]) idPatchPrims = .ok peC10 ∧
    tC10.wf ∧ tC10.C = peC10.in_channels ∧
    tC10.H % peC10.patch_height = 0 ∧ tC10.W % peC10.patch_width = 0 ∧
    ¬((tC10.H / peC10.patch_height) * (tC10.W / peC10.patch_width) ≤ peC10.num_patches) ∧
    (peC10.forward tC10).isOk = true :=
  ⟨rfl, by decide, rfl, rfl, rfl, by decide, rfl⟩

/-! ### Goodness of the concrete instances (helper lemmas for witnesses) -/

theorem idVitPrims_good : vitPrimsGood idVitPrims :=
  ⟨fun _ => rfl, fun _ => rfl,
    fun _ => ⟨fun _ => rfl, fun _ _ _ => rfl, fun _ => rfl, fun _ => rfl, fun _ => rfl⟩,
    fun _ => rfl⟩

theorem peW_good : peGood peW :=
  ⟨fun _ => rfl, rfl, rfl, rfl, rfl, fun _ => rfl, rfl, rfl,
    genMat_mem_length _ _ _, rfl⟩

theorem vitW_blocks_good :
    ∀ b ∈ vitW.transformer_encoder, blockGood b vitW.patch_embedding_layer.d_model := by
  intro b hb
  have heq : b = mkTransformerBlock 2 3 idBlockPrims := by
    simpa [vitW] using hb
  subst heq
  exact mkTransformerBlock_blockGood 2 3 idBlockPrims (fun _ => rfl) (fun _ _ _ => rfl)
    (fun _ => rfl) (fun _ => rfl) (fun _ => rfl)

theorem vitW_cls_good : clsGood vitW vitW.patch_embedding_layer.d_model 1 :=
  ⟨fun _ => rfl, rfl, rfl, rfl, rfl⟩

/-! ### Witnesses: the claim theorems applied at concrete inputs -/

theorem c1_witness :
    vitW.forward twit = .ok [[392 / 3]] ∧
    ([[(392 : Scalar) / 3]] : Mat).length = twit.B ∧
    ∀ r ∈ ([[(392 : Scalar) / 3]] : Mat), r.length = 1 := by
  have hfwd : vitW.forward twit = .ok [[392 / 3]] := by
    norm_num [vitW, peW, twit, idBlockPrims, mkTransformerBlock, ViT.forward, ViT.preMean,
      PatchEmbedding.forward, PatchEmbedding.to_patch_embedding, PatchEmbedding.embedTok,
      rearrangePatches, patchesOf, patchVec, sliceAdd, mapE, encApply, TransformerBlock.forward,
      MultiHeadAttentionBlock.forward, FeedForward.forward, FeedForward.forwardVec,
      FeedForward.mlpVec, lnApply3, LNorm.apply, LinearL.apply, LinearL.applyRaw,
      ViT.classifierVec, meanDim1, addT3, addMat, addVec, genMat, genVec, dot,
      List.range_succ, Bind.bind, Except.bind, pure, Except.pure, Except.map, List.foldl]
  have h := vit_output_shape_c1
    (rfl : mkViT (.pystr [2, 2]) 1 (.pystr [1, 2]) 2 1 3 1 1 idVitPrims = .ok vitW)
    idVitPrims_good (show twit.wf by decide) rfl (by decide) hfwd
  exact ⟨hfwd, h.1, h.2⟩

theorem c2_witness :
    vitW.transformer_encoder.length = 1 ∧ vitW.cls_ln.dim = 2 ∧
    vitW.cls_linear.W.length = 1 := by
  have h := vit_stack_composition_c2
    (rfl : mkViT (.pystr [2, 2]) 1 (.pystr [1, 2]) 2 1 3 1 1 idVitPrims = .ok vitW)
  exact ⟨h.1, h.2.2.1, h.2.2.2.2.1⟩

theorem c3_witness :
    ((∃ a b, (PyInput.pystr [2, 2] : PyInput) = .pystr [a, b]) ∧
      ∃ c d2, (PyInput.pystr [1, 2] : PyInput) = .pystr [c, d2]) ∧
    (vitDefault idVitPrims).isOk = false :=
  ⟨eval_requires_string_c3.1 1 2 (.pystr [2, 2]) (.pystr [1, 2]) idPatchPrims peW rfl,
    eval_requires_string_c3.2.2.2.1 idVitPrims⟩

theorem c4_witness :
    (mkTransformerBlock 2 3 idBlockPrims).forward [[[1, 1]]] = .ok [[[14, 14]]] := by
  refine (transformer_block_residual_c4 (mkTransformerBlock 2 3 idBlockPrims) [[[1, 1]]]
    [[[14, 14]]]).mpr ⟨[[[1, 1]]], [[[12, 12]]], rfl, ?_, ?_⟩
  · norm_num [mkTransformerBlock, idBlockPrims, FeedForward.forward, FeedForward.forwardVec,
      FeedForward.mlpVec, mapE, LNorm.apply, LinearL.apply, LinearL.applyRaw,
      addT3, addMat, addVec, genMat, genVec, dot, List.range_succ,
      Bind.bind, Except.bind, pure, Except.pure]
  · norm_num [addT3, addMat, addVec]

theorem c5_witness :
    ∃ s y, peW.to_patch_embedding twit = .ok s ∧ peW.forward twit = .ok y ∧
      (∀ m ∈ s, m.length = peW.num_patches) ∧
      List.Forall₂
        (fun m ym => ym = List.zipWith addVec (peW.cls_token :: m) peW.pos_embedding) s y :=
  patch_embedding_order_c5 peW_good (by decide) rfl rfl rfl (by decide) (by decide)

theorem c6_witness :
    ∃ r y, rearrangePatches peW.patch_height peW.patch_width twit = .ok r ∧
      peW.forward twit = .ok y ∧ y.length = twit.B ∧
      (∀ patches ∈ r,
        patches.length = (twit.H / peW.patch_height) * (twit.W / peW.patch_width) ∧
        ∀ p ∈ patches, p.length = peW.in_channels * peW.patch_height * peW.patch_width) ∧
      List.Forall₂ (fun patches m =>
        m.length = (twit.H / peW.patch_height) * (twit.W / peW.patch_width) + 1 ∧
        (∀ v ∈ m, v.length = peW.d_model) ∧
        ∀ i, i < patches.length →
          m.getD (i + 1) [] =
            addVec (peW.ln_embed.f (peW.proj.applyRaw (peW.ln_patch.f (patches.getD i []))))
              (peW.pos_embedding.getD (i + 1) [])) r y :=
  patch_token_count_c6_amended peW_good (by decide) rfl rfl rfl (by decide) (by decide)

theorem c7_witness :
    (mkTransformerBlock 2 3 idBlockPrims).msa_block.forward [[[1, 1]]] = .ok [[[1, 1]]] :=
  (msa_wrapper_c7.1 (mkTransformerBlock 2 3 idBlockPrims).msa_block [[[1, 1]]]
    [[[1, 1]]]).mpr ⟨[[[1, 1]]], rfl, rfl⟩

theorem c8_witness :
    (mkTransformerBlock 2 3 idBlockPrims).ff_block.forwardVec [1, 1] = .ok [6, 6] := by
  refine (feedforward_mlp_c8.1 (mkTransformerBlock 2 3 idBlockPrims).ff_block [1, 1]
    [6, 6]).mpr ⟨[1, 1], [2, 2, 2], [6, 6], rfl, ?_, ?_, rfl⟩
  · norm_num [mkTransformerBlock, idBlockPrims, LinearL.apply, LinearL.applyRaw,
      genMat, genVec, dot, List.range_succ]
  · norm_num [mkTransformerBlock, idBlockPrims, LinearL.apply, LinearL.applyRaw,
      genMat, genVec, dot, List.range_succ]

theorem c9_witness :
    ∃ c out, vitW.preMean twit = .ok c ∧ vitW.forward twit = .ok out ∧
      out = c.map meanDim1 ∧
      (∀ m ∈ c, m.length = vitW.patch_embedding_layer.num_patches + 1) ∧
      ∀ m ∈ c, ∀ j, j < 1 →
        (meanDim1 m).getD j 0 = (m.map (fun r => r.getD j 0)).sum / (m.length : Scalar) :=
  mean_readout_c9 peW_good vitW_blocks_good vitW_cls_good (by decide) rfl rfl rfl
    (by decide) (by decide)

theorem c10_witness :
    (peW.forward twit).isOk = true ↔
      twit.H % peW.patch_height = 0 ∧ twit.W % peW.patch_width = 0 ∧
        ((twit.H / peW.patch_height) * (twit.W / peW.patch_width) ≤ peW.num_patches ∨
          peW.num_patches = 0) :=
  pe_totality_c10_amended peW_good (by decide) rfl (by decide)
